import Mathlib

/-!
# Verification of the QuantEmul core (HilbertSpace / QuantumState)

A shallow embedding of the QuantEmul sources:
* `hilbert_space.cpp` — composite tensor-product spaces with mixed-radix
  flat-index/multi-index conversion (`getVector` / `getIndex`), tensor
  composition (`tensor` / `tensorWith`);
* `quantum_state.cpp` — density-matrix states: construction with full
  validation, `setMatrix`, `isPure`, `partialTrace`.

Modelling conventions:
* C++ `unsigned`/`int` quantities are modelled as `Nat` (an `Int` is kept
  where a signedness check in the source is relevant, e.g. the subsystem
  index of `partialTrace`).
* complex `double` entries are modelled exactly as pairs of rationals
  (`Cq`); the fixed tolerances of the source (`1.0e-15` for the trace /
  eigenvalue / purity checks, Eigen's default `isApprox` precision
  `1.0e-12`) are kept as exact rational constants, with `|z| < t`
  replaced by the equivalent `|z|^2 < t^2` so that everything stays in `ℚ`.
* functions that throw return `Except QuantErr _`; mutating members are
  modelled as functions returning the post-call object (together with the
  raised error, when one is raised, since a throwing mutator may leave a
  partially updated object behind).
* an out-of-bounds Eigen vector access (undefined behavior in C++, an
  assertion failure in debug builds) is modelled as the explicit error
  `QuantErr.undefinedBehavior`.
-/

namespace QuantEmul

/-- Complex numbers with exact rational components, modelling the
`std::complex<double>` entries of the source matrices. -/
@[ext]
structure Cq where
  re : ℚ
  im : ℚ
deriving DecidableEq, Repr

/-- Componentwise addition. -/
def Cq.add (a b : Cq) : Cq := ⟨a.re + b.re, a.im + b.im⟩

/-- Complex multiplication. -/
def Cq.mul (a b : Cq) : Cq := ⟨a.re * b.re - a.im * b.im, a.re * b.im + a.im * b.re⟩

/-- Componentwise negation. -/
def Cq.neg (a : Cq) : Cq := ⟨-a.re, -a.im⟩

theorem Cq.add_assoc (a b c : Cq) : add (add a b) c = add a (add b c) := by
  ext <;> simp [add] <;> ring

theorem Cq.add_comm (a b : Cq) : add a b = add b a := by
  ext <;> simp [add] <;> ring

theorem Cq.zero_add (a : Cq) : add ⟨0, 0⟩ a = a := by
  ext <;> simp [add]

theorem Cq.add_zero (a : Cq) : add a ⟨0, 0⟩ = a := by
  ext <;> simp [add]

theorem Cq.mul_assoc (a b c : Cq) : mul (mul a b) c = mul a (mul b c) := by
  ext <;> simp [mul] <;> ring

theorem Cq.mul_comm (a b : Cq) : mul a b = mul b a := by
  ext <;> simp [mul] <;> ring

theorem Cq.one_mul (a : Cq) : mul ⟨1, 0⟩ a = a := by
  ext <;> simp [mul]

theorem Cq.mul_one (a : Cq) : mul a ⟨1, 0⟩ = a := by
  ext <;> simp [mul]

theorem Cq.zero_mul (a : Cq) : mul ⟨0, 0⟩ a = ⟨0, 0⟩ := by
  ext <;> simp [mul]

theorem Cq.mul_zero (a : Cq) : mul a ⟨0, 0⟩ = ⟨0, 0⟩ := by
  ext <;> simp [mul]

theorem Cq.left_distrib (a b c : Cq) : mul a (add b c) = add (mul a b) (mul a c) := by
  ext <;> simp [mul, add] <;> ring

theorem Cq.right_distrib (a b c : Cq) : mul (add a b) c = add (mul a c) (mul b c) := by
  ext <;> simp [mul, add] <;> ring

theorem Cq.neg_add_cancel (a : Cq) : add (neg a) a = ⟨0, 0⟩ := by
  ext <;> simp [add, neg]

instance : Zero Cq := ⟨⟨0, 0⟩⟩

instance : One Cq := ⟨⟨1, 0⟩⟩

instance : Add Cq := ⟨Cq.add⟩

instance : Mul Cq := ⟨Cq.mul⟩

instance : Neg Cq := ⟨Cq.neg⟩

instance : CommRing Cq where
  zero := 0
  one := 1
  add := (· + ·)
  mul := (· * ·)
  neg := (- ·)
  nsmul := nsmulRec
  zsmul := zsmulRec
  add_assoc := Cq.add_assoc
  add_comm := Cq.add_comm
  zero_add := Cq.zero_add
  add_zero := Cq.add_zero
  mul_assoc := Cq.mul_assoc
  mul_comm := Cq.mul_comm
  one_mul := Cq.one_mul
  mul_one := Cq.mul_one
  zero_mul := Cq.zero_mul
  mul_zero := Cq.mul_zero
  left_distrib := Cq.left_distrib
  right_distrib := Cq.right_distrib
  neg_add_cancel := Cq.neg_add_cancel

@[simp] theorem Cq.zero_re : (0 : Cq).re = 0 := rfl

@[simp] theorem Cq.zero_im : (0 : Cq).im = 0 := rfl

@[simp] theorem Cq.one_re : (1 : Cq).re = 1 := rfl

@[simp] theorem Cq.one_im : (1 : Cq).im = 0 := rfl

@[simp] theorem Cq.add_re (a b : Cq) : (a + b).re = a.re + b.re := rfl

@[simp] theorem Cq.add_im (a b : Cq) : (a + b).im = a.im + b.im := rfl

@[simp] theorem Cq.mul_re (a b : Cq) : (a * b).re = a.re * b.re - a.im * b.im := rfl

@[simp] theorem Cq.mul_im (a b : Cq) : (a * b).im = a.re * b.im + a.im * b.re := rfl

@[simp] theorem Cq.neg_re (a : Cq) : (-a).re = -a.re := rfl

@[simp] theorem Cq.neg_im (a : Cq) : (-a).im = -a.im := rfl

@[simp] theorem Cq.sub_re (a b : Cq) : (a - b).re = a.re - b.re := by
  rw [sub_eq_add_neg, sub_eq_add_neg]; rfl

@[simp] theorem Cq.sub_im (a b : Cq) : (a - b).im = a.im - b.im := by
  rw [sub_eq_add_neg, sub_eq_add_neg]; rfl

/-- Complex conjugate. -/
def Cq.conj (a : Cq) : Cq := ⟨a.re, -a.im⟩

/-- Squared modulus, `|a|^2`, an exact rational. -/
def Cq.absSq (a : Cq) : ℚ := a.re * a.re + a.im * a.im

/-- Embedding of a rational as a complex number. -/
def Cq.ofRat (q : ℚ) : Cq := ⟨q, 0⟩

@[simp] theorem Cq.conj_re (a : Cq) : a.conj.re = a.re := rfl

@[simp] theorem Cq.conj_im (a : Cq) : a.conj.im = -a.im := rfl

theorem Cq.conj_add (a b : Cq) : (a + b).conj = a.conj + b.conj := by
  ext <;> simp [conj] <;> ring

theorem Cq.conj_mul (a b : Cq) : (a * b).conj = a.conj * b.conj := by
  ext <;> simp [conj] <;> ring

@[simp] theorem Cq.conj_zero : (0 : Cq).conj = 0 := by
  ext <;> simp [conj]

/-- Conjugation as an additive monoid morphism (used to push `conj` through
finite sums). -/
def Cq.conjAddHom : Cq →+ Cq where
  toFun := Cq.conj
  map_zero' := Cq.conj_zero
  map_add' := Cq.conj_add

theorem Cq.conj_sum {α : Type} (s : Finset α) (f : α → Cq) :
    (∑ x ∈ s, f x).conj = ∑ x ∈ s, (f x).conj :=
  map_sum Cq.conjAddHom f s

theorem Cq.absSq_nonneg (a : Cq) : 0 ≤ a.absSq := by
  have h1 : 0 ≤ a.re * a.re := mul_self_nonneg _
  have h2 : 0 ≤ a.im * a.im := mul_self_nonneg _
  simpa [Cq.absSq] using add_nonneg h1 h2

/-! ## Error taxonomy

`invalid_argument`, `out_of_range` and `runtime_error` of the C++ sources;
`undefinedBehavior` marks an out-of-bounds Eigen access (no defined C++
semantics). -/

inductive QuantErr where
  | invalidArgument
  | outOfRange
  | runtimeFailure
  | undefinedBehavior
deriving DecidableEq, Repr

/-! ## HilbertSpace (hilbert_space.cpp)

The C++ object stores three fields: `_rank`, `_dimensions` and the cached
total dimension `_dim`.  They are kept as separate fields (rather than
derived data) because the default constructor leaves them mutually
inconsistent (`_dim = 0` while the empty product is `1`), which is
observable behavior. -/

structure HilbertSpace where
  _rank : Nat
  _dimensions : List Nat
  _dim : Nat
deriving DecidableEq, Repr

/-- `HilbertSpace::HilbertSpace()` — the zero-argument constructor:
`_rank = 0`, `_dim = 0`, `_dimensions` empty. -/
def HilbertSpace.default : HilbertSpace := ⟨0, [], 0⟩

/-- `HilbertSpace::HilbertSpace(uint dim)`: throws `invalid_argument` when
`dim == 0`, otherwise a single-factor space. -/
def HilbertSpace.mkDim (dim : Nat) : Except QuantErr HilbertSpace :=
  if dim = 0 then .error .invalidArgument
  else .ok ⟨1, [dim], dim⟩

/-- The state of a `HilbertSpace(const vector<uint>&)` object after a
successful construction: `_rank` is the list length and `_dim` the product
of the entries. -/
def HilbertSpace.ofDims (l : List Nat) : HilbertSpace := ⟨l.length, l, l.prod⟩

/-- `HilbertSpace::HilbertSpace(const vector<uint>&)`: `_rank` is the list
length, the loop throws `invalid_argument` at the first zero entry and
otherwise accumulates `_dim` as the product of the entries (starting from
`1`).  A throwing constructor never produces an object, so the model simply
fails when any entry is zero. -/
def HilbertSpace.mkDims (dimensions : List Nat) : Except QuantErr HilbertSpace :=
  if dimensions.contains 0 then .error .invalidArgument
  else .ok (HilbertSpace.ofDims dimensions)

/-- `HilbertSpace::tensorWith`: appends the first `second._rank` entries of
`second._dimensions` (for every constructed space that is all of them),
adds ranks and multiplies cached total dimensions.  The C++ method mutates
`this` in place; the model returns the post-call value. -/
def HilbertSpace.tensorWith (s second : HilbertSpace) : HilbertSpace :=
  ⟨s._rank + second._rank,
   s._dimensions ++ second._dimensions.take second._rank,
   s._dim * second._dim⟩

/-- Static `HilbertSpace::tensor(first, second)`: copies `first` and applies
`tensorWith` to the copy, leaving both arguments untouched. -/
def HilbertSpace.tensor (first second : HilbertSpace) : HilbertSpace :=
  first.tensorWith second

/-- `rank()` accessor. -/
def HilbertSpace.rank (s : HilbertSpace) : Nat := s._rank

/-- `totalDimension()` accessor (returns the cached `_dim`). -/
def HilbertSpace.totalDimension (s : HilbertSpace) : Nat := s._dim

/-- `dimensions()` accessor. -/
def HilbertSpace.dimensions (s : HilbertSpace) : List Nat := s._dimensions

/-- `dimension(int index)` accessor: `out_of_range` for `index < 0` or
`index >= _rank`. -/
def HilbertSpace.dimension (s : HilbertSpace) (index : Int) : Except QuantErr Nat :=
  if index < 0 then .error .outOfRange
  else if (s._rank : Int) ≤ index then .error .outOfRange
  else .ok (s._dimensions.getD index.toNat 0)

/-- `operator==`: ordered comparison of the `_dimensions` sequences only. -/
def HilbertSpace.eqb (a b : HilbertSpace) : Bool := a._dimensions == b._dimensions

/-- `operator!=`. -/
def HilbertSpace.neb (a b : HilbertSpace) : Bool := !(a.eqb b)

/-- The dimensions the index-conversion loops actually touch:
`_dimensions[i]` for `0 <= i < _rank`.  For every constructed space
`_rank = _dimensions.length`, so this is the whole list. -/
def HilbertSpace.dimsUsed (s : HilbertSpace) : List Nat := s._dimensions.take s._rank

/-- The digit-extraction loop of `getVector`, written over the reversed
dimension list: the C++ loop runs `i = _rank-1 .. 0` with
`vec[i] = index % _dimensions[i]; index = floor(index / _dimensions[i])`
(the `double` round trip is exact integer division on the `int` range). -/
def digitsRevAux : List Nat → Nat → List Nat
  | [], _ => []
  | d :: ds, n => (n % d) :: digitsRevAux ds (n / d)

/-- `HilbertSpace::getVector(int index)`: mixed-radix unraveling of a flat
index into one digit per factor (most significant factor first), with no
range check on `index`. -/
def HilbertSpace.getVector (s : HilbertSpace) (index : Nat) : List Nat :=
  (digitsRevAux s.dimsUsed.reverse index).reverse

/-- The accumulation loop of `getIndex`: digit `i` is weighted by the
product of the dimensions after position `i` (the last digit by `1`),
matching the running `multiplier` of the C++ loop. -/
def radixIndex : List Nat → List Nat → Nat
  | v :: vs, _ :: ds => v * ds.prod + radixIndex vs ds
  | _, _ => 0

/-- `HilbertSpace::getIndex(vec)`: throws `invalid_argument` when the vector
length differs from `_rank`; on a rank-0 space the body then reads
`vec[vec.size() - 1]`, i.e. `vec[-1]` — out of bounds (undefined
behavior). -/
def HilbertSpace.getIndex (s : HilbertSpace) (vec : List Nat) : Except QuantErr Nat :=
  if vec.length ≠ s._rank then .error .invalidArgument
  else if s._rank = 0 then .error .undefinedBehavior
  else .ok (radixIndex vec s.dimsUsed)

/-- Well-formedness of every space produced by a (non-default) constructor:
the rank caches the length, the dimensions are positive, and `_dim` caches
the product. -/
def HilbertSpace.Valid (s : HilbertSpace) : Prop :=
  s._rank = s._dimensions.length ∧ (∀ d ∈ s._dimensions, 0 < d) ∧
    s._dim = s._dimensions.prod

instance (s : HilbertSpace) : Decidable s.Valid := by
  unfold HilbertSpace.Valid; infer_instance

/-! ### Mixed-radix arithmetic lemmas -/

theorem digitsRevAux_length (ds : List Nat) (n : Nat) :
    (digitsRevAux ds n).length = ds.length := by
  induction ds generalizing n with
  | nil => rfl
  | cons d ds ih => simp [digitsRevAux, ih]

theorem digitsRevAux_forall₂ (ds : List Nat) (n : Nat) (hpos : ∀ d ∈ ds, 0 < d) :
    List.Forall₂ (· < ·) (digitsRevAux ds n) ds := by
  induction ds generalizing n with
  | nil => exact List.Forall₂.nil
  | cons d ds ih =>
      refine List.Forall₂.cons ?_ (ih _ fun x hx => hpos x (List.mem_cons_of_mem _ hx))
      exact Nat.mod_lt _ (hpos d (List.mem_cons_self d ds))

/-- LSB-first recomposition (digit `0` is least significant). -/
def valueRev : List Nat → List Nat → Nat
  | v :: vs, d :: ds => v + d * valueRev vs ds
  | _, _ => 0

theorem nat_mod_mul_decomp (n d P : Nat) :
    n % (d * P) = n % d + d * (n / d % P) := by
  rcases Nat.eq_zero_or_pos d with hd | hd
  · subst hd; simp
  rcases Nat.eq_zero_or_pos P with hP | hP
  · subst hP; simp [Nat.mod_add_div]
  have hrewrite : n = (n % d + d * (n / d % P)) + (d * P) * (n / d / P) := by
    conv_lhs => rw [← Nat.mod_add_div n d, ← Nat.mod_add_div (n / d) P]
    ring
  have hbound : n % d + d * (n / d % P) < d * P := by
    have h1 : n % d < d := Nat.mod_lt _ hd
    have h2 : n / d % P < P := Nat.mod_lt _ hP
    calc n % d + d * (n / d % P) < d + d * (n / d % P) := by omega
      _ = d * (n / d % P + 1) := by ring
      _ ≤ d * P := Nat.mul_le_mul_left d (Nat.succ_le_of_lt h2)
  conv_lhs => rw [hrewrite]
  rw [Nat.add_mul_mod_self_left, Nat.mod_eq_of_lt hbound]

theorem valueRev_digitsRevAux (ds : List Nat) (n : Nat) :
    valueRev (digitsRevAux ds n) ds = n % ds.prod := by
  induction ds generalizing n with
  | nil => simp [digitsRevAux, valueRev, Nat.mod_one]
  | cons d ds ih =>
      simp only [digitsRevAux, valueRev, ih, List.prod_cons]
      exact (nat_mod_mul_decomp n d ds.prod).symm

theorem valueRev_lt (v ds : List Nat) (h : List.Forall₂ (· < ·) v ds) :
    valueRev v ds < ds.prod := by
  induction h with
  | nil => simp [valueRev]
  | @cons a d v ds hlt _ ih =>
      simp only [valueRev, List.prod_cons]
      calc a + d * valueRev v ds < d + d * valueRev v ds := by omega
        _ = d * (valueRev v ds + 1) := by ring
        _ ≤ d * ds.prod := Nat.mul_le_mul_left d (Nat.succ_le_of_lt ih)

theorem digitsRevAux_valueRev (v ds : List Nat) (h : List.Forall₂ (· < ·) v ds) :
    digitsRevAux ds (valueRev v ds) = v := by
  induction h with
  | nil => rfl
  | @cons a d v ds hlt _ ih =>
      simp only [valueRev, digitsRevAux, List.cons.injEq]
      constructor
      · rw [Nat.add_mul_mod_self_left, Nat.mod_eq_of_lt hlt]
      · rw [Nat.add_mul_div_left _ _ (Nat.lt_of_le_of_lt (Nat.zero_le _) hlt),
          Nat.div_eq_of_lt hlt, Nat.zero_add]
        exact ih

theorem valueRev_append (u s : List Nat) (a d : Nat) (hlen : u.length = s.length) :
    valueRev (u ++ [a]) (s ++ [d]) = valueRev u s + s.prod * a := by
  induction u generalizing s with
  | nil =>
      rw [List.length_nil] at hlen
      obtain rfl : s = [] := List.eq_nil_of_length_eq_zero hlen.symm
      simp [valueRev]
  | cons x u ih =>
      cases s with
      | nil => simp at hlen
      | cons e s =>
          simp only [List.length_cons, Nat.succ.injEq] at hlen
          simp only [List.cons_append, valueRev, List.prod_cons, List.append_eq]
          rw [ih s hlen]
          ring

theorem radixIndex_eq_valueRev (v ds : List Nat) (hlen : v.length = ds.length) :
    radixIndex v ds = valueRev v.reverse ds.reverse := by
  induction v generalizing ds with
  | nil =>
      rw [List.length_nil] at hlen
      obtain rfl : ds = [] := List.eq_nil_of_length_eq_zero hlen.symm
      rfl
  | cons a v ih =>
      cases ds with
      | nil => simp at hlen
      | cons d ds =>
          simp only [List.length_cons, Nat.succ.injEq] at hlen
          simp only [radixIndex, List.reverse_cons]
          rw [valueRev_append _ _ _ _ (by simp [hlen]), ← ih ds hlen,
            List.prod_reverse]
          ring

theorem radixIndex_append (u t p s : List Nat) (hlen : u.length = p.length) :
    radixIndex (u ++ t) (p ++ s) = radixIndex u p * s.prod + radixIndex t s := by
  induction u generalizing p with
  | nil =>
      rw [List.length_nil] at hlen
      obtain rfl : p = [] := List.eq_nil_of_length_eq_zero hlen.symm
      simp [radixIndex]
  | cons a u ih =>
      cases p with
      | nil => simp at hlen
      | cons d p =>
          simp only [List.length_cons, Nat.succ.injEq] at hlen
          simp only [List.cons_append, radixIndex, List.append_eq]
          rw [ih p hlen, List.prod_append]
          ring

theorem radixIndex_lt (v ds : List Nat) (h : List.Forall₂ (· < ·) v ds) :
    radixIndex v ds < ds.prod := by
  rw [radixIndex_eq_valueRev _ _ h.length_eq, ← List.prod_reverse]
  exact valueRev_lt _ _ (List.forall₂_reverse_iff.mpr h)

/-- Round trip: recomposing the digits of `n` gives `n` modulo the total
dimension. -/
theorem radixIndex_getVector (s : HilbertSpace) (n : Nat) :
    radixIndex (s.getVector n) s.dimsUsed = n % s.dimsUsed.prod := by
  rw [HilbertSpace.getVector,
    radixIndex_eq_valueRev _ _ (by simp [digitsRevAux_length]),
    List.reverse_reverse, valueRev_digitsRevAux, List.prod_reverse]

/-- Inverse round trip: the digits of a recomposed bounded digit vector are
that vector. -/
theorem getVector_radixIndex (s : HilbertSpace) (v : List Nat)
    (h : List.Forall₂ (· < ·) v s.dimsUsed) :
    s.getVector (radixIndex v s.dimsUsed) = v := by
  rw [HilbertSpace.getVector, radixIndex_eq_valueRev _ _ h.length_eq,
    digitsRevAux_valueRev _ _ (List.forall₂_reverse_iff.mpr h),
    List.reverse_reverse]

theorem getVector_length (s : HilbertSpace) (n : Nat) :
    (s.getVector n).length = s.dimsUsed.length := by
  simp [HilbertSpace.getVector, digitsRevAux_length]

theorem getVector_forall₂ (s : HilbertSpace) (n : Nat)
    (hpos : ∀ d ∈ s.dimsUsed, 0 < d) :
    List.Forall₂ (· < ·) (s.getVector n) s.dimsUsed := by
  have hpos2 : ∀ d ∈ s.dimsUsed.reverse, 0 < d := by
    intro d hd
    exact hpos d (List.mem_reverse.mp hd)
  have h := digitsRevAux_forall₂ s.dimsUsed.reverse n hpos2
  have h2 : List.Forall₂ (· < ·) (digitsRevAux s.dimsUsed.reverse n).reverse
      s.dimsUsed.reverse.reverse := List.forall₂_reverse_iff.mpr h
  rw [HilbertSpace.getVector]
  simpa using h2

/-! ## Dense complex matrices (Eigen `MatrixXcd`)

A matrix is a pair of dimensions together with a total entry function;
operations only ever read entries inside the stated bounds. -/

structure Mat where
  rows : Nat
  cols : Nat
  entry : Nat → Nat → Cq

/-- Matrix product. -/
def Mat.mul (a b : Mat) : Mat :=
  ⟨a.rows, b.cols, fun i j => ∑ k ∈ Finset.range a.cols, a.entry i k * b.entry k j⟩

/-- Trace (sum of the diagonal; all uses are on square matrices). -/
def Mat.trace (m : Mat) : Cq := ∑ i ∈ Finset.range m.rows, m.entry i i

/-- Eigen `.adjoint()` — conjugate transpose. -/
def Mat.adjointM (m : Mat) : Mat := ⟨m.cols, m.rows, fun i j => (m.entry j i).conj⟩

/-- Entrywise difference. -/
def Mat.subM (a b : Mat) : Mat := ⟨a.rows, a.cols, fun i j => a.entry i j - b.entry i j⟩

/-- Squared Frobenius norm (Eigen `squaredNorm`), an exact rational. -/
def Mat.frobSq (m : Mat) : ℚ :=
  ∑ i ∈ Finset.range m.rows, ∑ j ∈ Finset.range m.cols, (m.entry i j).absSq

/-- Square of Eigen's default `isApprox` precision for `complex<double>`
(`dummy_precision() = 1e-12`). -/
def precSq : ℚ := 1 / 10 ^ 24

/-- The fixed `1.0e-15` tolerance of `quantum_state.cpp`. -/
def epsQ : ℚ := 1 / 10 ^ 15

/-- Its square, used where the C++ compares `abs` of a complex value. -/
def epsSq : ℚ := epsQ * epsQ

/-- Eigen `a.isApprox(b)`:
`(a - b).squaredNorm() <= prec^2 * min(a.squaredNorm(), b.squaredNorm())`. -/
def Mat.isApprox (a b : Mat) : Bool :=
  decide ((a.subM b).frobSq ≤ precSq * min a.frobSq b.frobSq)

theorem Mat.frobSq_nonneg (m : Mat) : 0 ≤ m.frobSq := by
  refine Finset.sum_nonneg fun i _ => Finset.sum_nonneg fun j _ => ?_
  exact Cq.absSq_nonneg _

/-! ## QuantumState (quantum_state.cpp)

The eigensolver (`Eigen::SelfAdjointEigenSolver`, third-party library code)
cannot be given an exact computable model for arbitrary Hermitian input, so
every state-building operation takes it as an explicit function argument
`solver : Mat → List ℚ × Mat` returning (eigenvalues, eigenvectors); it is
invoked only after the Hermitian check, where Eigen's solver reports
convergence (the `runtime_error` branch of the source is unreachable for
it and is not modelled).  `diagSolver` below instantiates it exactly for
the diagonal matrices used in the concrete examples. -/

structure QuantumState where
  _density : Mat
  _space : HilbertSpace
  _eigenValues : List ℚ
  _eigenVectors : Mat

/-- The eigensolver abstraction: eigenvalues and eigenvector matrix. -/
abbrev Solver := Mat → List ℚ × Mat

/-- `_checkMatrixIsSquare` (throws unless `cols == rows`). -/
def checkMatrixIsSquareB (m : Mat) : Bool := m.rows == m.cols

/-- `_checkMatrixIsSelfAdjoined`: `matr.isApprox(matr.adjoint())`. -/
def checkMatrixIsSelfAdjoinedB (m : Mat) : Bool := m.isApprox m.adjointM

/-- The per-eigenvalue test of `_checkMatrixIsDensityMatrix`: an eigenvalue
is rejected when it is farther from zero than `1e-15` and negative. -/
def badEigenValue (l : ℚ) : Bool := decide (epsQ < |l|) && decide (l < 0)

/-- The trace test of `_checkMatrixIsDensityMatrix`:
`abs(matr.trace() - 1) > 1.0e-15` throws, i.e. the check passes when
`|trace - 1|^2 <= (1e-15)^2`. -/
def checkTraceOneB (m : Mat) : Bool := decide ((m.trace - 1).absSq ≤ epsSq)

/-- `_checkSpaceDimension`: `space.totalDimension() == matr.rows()`. -/
def checkSpaceDimensionB (m : Mat) (space : HilbertSpace) : Bool :=
  space.totalDimension == m.rows

/-- The vector branch of the constructor: `matr.normalize()` followed by
`_density = matr * matr.transpose()` (note: `transpose`, not `adjoint`).
`(v/‖v‖)(v/‖v‖)ᵀ` has entries `v_i * v_j / ‖v‖²`, which is exact rational
arithmetic. -/
def vectorToDensity (matr : Mat) : Mat :=
  let nsq : ℚ := ∑ i ∈ Finset.range matr.rows, (matr.entry i 0).absSq
  ⟨matr.rows, matr.rows, fun i j => Cq.ofRat (1 / nsq) * (matr.entry i 0 * matr.entry j 0)⟩

/-- The density matrix the constructor commits before validation: the
normalized outer product for a single-column input, the input itself
otherwise. -/
def QuantumState.constructedDensity (matr : Mat) : Mat :=
  if matr.cols = 1 then vectorToDensity matr else matr

/-- The shared validation tail of the constructor:
`_calculateEigenValuesAndVectors` (Hermitian check, then the solver), then
`_checkMatrixIsDensityMatrix` (eigenvalue sign check, then trace check),
then `_checkSpaceDimension`. -/
def QuantumState.makeValidated (solver : Solver) (density : Mat)
    (space : HilbertSpace) : Except QuantErr QuantumState :=
  if ¬ checkMatrixIsSelfAdjoinedB density then .error .invalidArgument
  else
    let ev := (solver density).1
    let evec := (solver density).2
    if ev.any badEigenValue then .error .invalidArgument
    else if ¬ checkTraceOneB density then .error .invalidArgument
    else if ¬ checkSpaceDimensionB density space then .error .invalidArgument
    else .ok ⟨density, space, ev, evec⟩

/-- `QuantumState::QuantumState(MatrixXcd, const HilbertSpace&)`: a
single-column input skips the square check and is turned into an outer
product; any other non-square input throws; then the validation tail
runs. -/
def QuantumState.make (solver : Solver) (matr : Mat)
    (space : HilbertSpace) : Except QuantErr QuantumState :=
  if matr.cols ≠ 1 ∧ matr.rows ≠ matr.cols then .error .invalidArgument
  else QuantumState.makeValidated solver (QuantumState.constructedDensity matr) space

/-- `QuantumState::setMatrix`: square check, space-dimension check, then
`_calculateEigenValuesAndVectors` — which assigns `_eigenValues` and
`_eigenVectors` as soon as the Hermitian check passes — then
`_checkMatrixIsDensityMatrix`, and only then `_density = matr`.  The model
returns the post-call object together with the raised error (if any),
because a throw after the eigen assignment leaves the object partially
updated. -/
def QuantumState.setMatrix (solver : Solver) (s : QuantumState) (matr : Mat) :
    QuantumState × Option QuantErr :=
  if matr.rows ≠ matr.cols then (s, some .invalidArgument)
  else if ¬ checkSpaceDimensionB matr s._space then (s, some .invalidArgument)
  else if ¬ checkMatrixIsSelfAdjoinedB matr then (s, some .invalidArgument)
  else
    let ev := (solver matr).1
    let evec := (solver matr).2
    let s1 : QuantumState := { s with _eigenValues := ev, _eigenVectors := evec }
    if ev.any badEigenValue then (s1, some .invalidArgument)
    else if ¬ checkTraceOneB matr then (s1, some .invalidArgument)
    else ({ s1 with _density := matr }, none)

/-- `QuantumState::isPure`: `abs((ρ·ρ).trace() - 1) < 1.0e-15` (strict). -/
def QuantumState.isPure (s : QuantumState) : Bool :=
  decide (((s._density.mul s._density).trace - 1).absSq < epsSq)

/-- `space()` accessor. -/
def QuantumState.space (s : QuantumState) : HilbertSpace := s._space

/-- `densityMatrix()` accessor. -/
def QuantumState.densityMatrix (s : QuantumState) : Mat := s._density

/-- `eigenValues()` accessor. -/
def QuantumState.eigenValues (s : QuantumState) : List ℚ := s._eigenValues

/-- `eigenVectors()` accessor. -/
def QuantumState.eigenVectors (s : QuantumState) : Mat := s._eigenVectors

/-- Modelled from the spec: `KroneckerTensor::product` (declared in
`kronecker_tensor.h`, whose implementation is not among the provided
sources): the Kronecker product with the first argument as the outer,
slower-varying factor. -/
def KroneckerTensor.product (a b : Mat) : Mat :=
  ⟨a.rows * b.rows, a.cols * b.cols,
   fun i j => a.entry (i / b.rows) (j / b.cols) * b.entry (i % b.rows) (j % b.cols)⟩

/-- `QuantumState::tensor`: Kronecker product of densities over the tensor
of the spaces, re-validated through the constructor. -/
def QuantumState.tensor (solver : Solver) (first second : QuantumState) :
    Except QuantErr QuantumState :=
  QuantumState.make solver
    (KroneckerTensor.product first._density second._density)
    (HilbertSpace.tensor first._space second._space)

/-! ### partialTrace -/

/-- The dimension list after `dims.erase(dims.begin() + index)`. -/
def reducedDims (s : HilbertSpace) (idx : Nat) : List Nat := s._dimensions.eraseIdx idx

/-- One loop iteration of `partialTrace` produces a target cell and a
summand: for `row` over the full space and `col` over the reduced space,
the multi-index `|ik⟩` of `row` is decoded, `⟨j|` is decoded from `col`,
`⟨jk|` is rebuilt by inserting digit `k = vecLeftIndex[index]` at position
`index`, `|i⟩` is `vecLeftIndex` with position `index` erased, the summand
is `⟨ik|ρ|jk⟩` (the basis vectors returned by `getBasisVector` — modelled
from the spec, the implementation is not among the provided sources — are
standard basis vectors, so the bilinear form is the matrix entry at the
recomposed flat indices), and the target cell is
`(getIndex(vecLeftRed), getIndex(vecRightRed))`.  Every `getIndex` call in
the loop is on a vector of matching length over a space of positive rank
(the rank-0 reduced case is cut off before the loop), so the calls are
modelled by their normal return `radixIndex`. -/
def ptCell (st : QuantumState) (idx row col : Nat) : Nat × Nat × Cq :=
  let space := st._space
  let newSpace := HilbertSpace.ofDims (reducedDims space idx)
  let vecLeftIndex := space.getVector row
  let vecRightRed := newSpace.getVector col
  let vecRightIndex := List.insertIdx idx (vecLeftIndex.getD idx 0) vecRightRed
  let vecLeftRed := vecLeftIndex.eraseIdx idx
  let coef := st._density.entry (radixIndex vecLeftIndex space.dimsUsed)
    (radixIndex vecRightIndex space.dimsUsed)
  (radixIndex vecLeftRed newSpace.dimsUsed,
   radixIndex vecRightRed newSpace.dimsUsed, coef)

/-- The full iteration sequence of the double loop (`row` over the full
space, `col` over `totalDimension / dimension(index)`). -/
def ptContribs (st : QuantumState) (idx : Nat) : List (Nat × Nat × Cq) :=
  (List.range st._space.totalDimension).flatMap fun row =>
    (List.range (st._space.totalDimension / st._space._dimensions.getD idx 0)).map
      fun col => ptCell st idx row col

/-- The zero-initialized result matrix after the sequence of
`res(i, j) += coef` updates. -/
def accumulate (l : List (Nat × Nat × Cq)) : Nat → Nat → Cq :=
  l.foldl
    (fun acc t => fun i j => if i = t.1 ∧ j = t.2.1 then acc i j + t.2.2 else acc i j)
    (fun _ _ => 0)

/-- The `res` matrix computed by the double loop of `partialTrace`. -/
def ptMatrix (st : QuantumState) (idx : Nat) : Mat :=
  let newSpace := HilbertSpace.ofDims (reducedDims st._space idx)
  ⟨newSpace.totalDimension, newSpace.totalDimension, accumulate (ptContribs st idx)⟩

/-- `QuantumState::partialTrace(int index)`: `invalid_argument` for a
negative index or one at least the space rank; then the reduced space is
built (its constructor validates the remaining dimensions).  When the
reduced space has rank 0 (i.e. the state's space has rank 1), the first
`getIndex` call inside the loop evaluates `vec[vec.size() - 1]` on an empty
Eigen vector — an out-of-bounds read with no defined semantics, modelled as
`undefinedBehavior`.  Otherwise the result matrix is passed through the
`QuantumState` constructor. -/
def QuantumState.partialTrace (solver : Solver) (st : QuantumState) (index : Int) :
    Except QuantErr QuantumState :=
  if index < 0 then .error .invalidArgument
  else if (st._space.rank : Int) ≤ index then .error .invalidArgument
  else
    match HilbertSpace.mkDims (reducedDims st._space index.toNat) with
    | .error e => .error e
    | .ok newSpace =>
        if newSpace._rank = 0 then .error .undefinedBehavior
        else QuantumState.make solver (ptMatrix st index.toNat) newSpace

/-- Insertion of a (value, position) pair into a list sorted by value. -/
def insertSorted (x : ℚ × Nat) : List (ℚ × Nat) → List (ℚ × Nat)
  | [] => [x]
  | y :: ys => if x.1 ≤ y.1 then x :: y :: ys else y :: insertSorted x ys

/-- Insertion sort by value (ascending). -/
def sortPairs : List (ℚ × Nat) → List (ℚ × Nat)
  | [] => []
  | x :: xs => insertSorted x (sortPairs xs)

/-- Modelled from the spec: `Eigen::SelfAdjointEigenSolver` (third-party
library code, external to the repository), instantiated for the diagonal
real matrices used in the concrete examples below, on which its documented
behavior is exact: eigenvalues are the diagonal entries in increasing
order, eigenvectors the correspondingly permuted standard basis vectors. -/
def diagSolver (m : Mat) : List ℚ × Mat :=
  let sorted := sortPairs ((List.range m.rows).map fun i => ((m.entry i i).re, i))
  (sorted.map Prod.fst,
   ⟨m.rows, m.rows, fun i j => if (sorted.getD j (0, 0)).2 = i then 1 else 0⟩)

/-- A quantum state as produced by a successful construction from exact
data: a well-formed space, a square density matrix of the space's total
dimension that is exactly Hermitian (inside its bounds) with exact unit
trace. -/
def QuantumState.ValidExact (st : QuantumState) : Prop :=
  st._space.Valid ∧
  st._density.rows = st._space.totalDimension ∧
  st._density.cols = st._density.rows ∧
  (∀ i < st._density.rows, ∀ j < st._density.rows,
      st._density.entry j i = (st._density.entry i j).conj) ∧
  st._density.trace = 1

instance (st : QuantumState) : Decidable st.ValidExact := by
  unfold QuantumState.ValidExact; infer_instance

/-! ### Digit vectors over explicit dimension lists -/

/-- Most-significant-first digits of `n` over the dimension list `ds` (the
body of `getVector` over an explicit dimension list). -/
def digitsM (ds : List Nat) (n : Nat) : List Nat := (digitsRevAux ds.reverse n).reverse

theorem getVector_eq_digitsM (s : HilbertSpace) (n : Nat) :
    s.getVector n = digitsM s.dimsUsed n := rfl

theorem HilbertSpace.dimsUsed_ofDims (l : List Nat) :
    (HilbertSpace.ofDims l).dimsUsed = l := by
  simp [HilbertSpace.dimsUsed, HilbertSpace.ofDims]

theorem HilbertSpace.dimsUsed_eq (s : HilbertSpace) (h : s.Valid) :
    s.dimsUsed = s._dimensions := by
  rw [HilbertSpace.dimsUsed, h.1, List.take_length]

theorem digitsM_length (ds : List Nat) (n : Nat) :
    (digitsM ds n).length = ds.length := by
  simp [digitsM, digitsRevAux_length]

theorem digitsM_forall₂ (ds : List Nat) (n : Nat) (hpos : ∀ d ∈ ds, 0 < d) :
    List.Forall₂ (· < ·) (digitsM ds n) ds := by
  have h := getVector_forall₂ (HilbertSpace.ofDims ds) n
    (by rw [HilbertSpace.dimsUsed_ofDims]; exact hpos)
  rwa [getVector_eq_digitsM, HilbertSpace.dimsUsed_ofDims] at h

theorem radixIndex_digitsM (ds : List Nat) (n : Nat) :
    radixIndex (digitsM ds n) ds = n % ds.prod := by
  have h := radixIndex_getVector (HilbertSpace.ofDims ds) n
  rwa [getVector_eq_digitsM, HilbertSpace.dimsUsed_ofDims] at h

theorem digitsM_radixIndex (ds v : List Nat) (h : List.Forall₂ (· < ·) v ds) :
    digitsM ds (radixIndex v ds) = v := by
  have h2 := getVector_radixIndex (HilbertSpace.ofDims ds) v
    (by rwa [HilbertSpace.dimsUsed_ofDims])
  rwa [getVector_eq_digitsM, HilbertSpace.dimsUsed_ofDims] at h2

/-! ### Splitting lists at an index -/

theorem insertIdx_append_len (u t : List Nat) (k : Nat) :
    List.insertIdx u.length k (u ++ t) = u ++ k :: t := by
  induction u with
  | nil => rfl
  | cons x u ih => simp [List.insertIdx_succ_cons, ih]

theorem eraseIdx_append_len (u t : List Nat) (k : Nat) :
    (u ++ k :: t).eraseIdx u.length = u ++ t := by
  induction u with
  | nil => rfl
  | cons x u ih => simp [List.eraseIdx, ih]

theorem getD_append_len (u t : List Nat) (k : Nat) :
    (u ++ k :: t).getD u.length 0 = k := by
  rw [List.getD_append_right _ _ _ _ (le_refl _)]
  simp

theorem list_take_getD_drop (l : List Nat) (idx : Nat) (h : idx < l.length) :
    l = l.take idx ++ l.getD idx 0 :: l.drop (idx + 1) := by
  conv_lhs => rw [← List.take_append_drop idx l]
  rw [List.getD_eq_getElem _ _ h, List.drop_eq_getElem_cons h]

theorem eraseIdx_eq_take_append_drop (l : List Nat) (idx : Nat) :
    l.eraseIdx idx = l.take idx ++ l.drop (idx + 1) :=
  List.eraseIdx_eq_take_drop_succ l idx

theorem length_take_of_lt {l : List Nat} {idx : Nat} (h : idx ≤ l.length) :
    (l.take idx).length = idx := by
  rw [List.length_take]
  omega

theorem forall₂_getD_lt (v ds : List Nat) (h : List.Forall₂ (· < ·) v ds) :
    ∀ i < v.length, v.getD i 0 < ds.getD i 0 := by
  induction h with
  | nil => intro i hi; simp at hi
  | @cons a d v ds hlt htail ih =>
      intro i hi
      cases i with
      | zero => simpa using hlt
      | succ i =>
          simp only [List.length_cons, Nat.succ_lt_succ_iff] at hi
          simpa using ih i hi

/-! ### The accumulation loop -/

theorem accum_foldl (init : Nat → Nat → Cq) (l : List (Nat × Nat × Cq)) (i j : Nat) :
    (List.foldl
      (fun acc t => fun a b => if a = t.1 ∧ b = t.2.1 then acc a b + t.2.2 else acc a b)
      init l) i j
      = init i j + (l.map fun t => if i = t.1 ∧ j = t.2.1 then t.2.2 else 0).sum := by
  induction l generalizing init with
  | nil => simp
  | cons t l ih =>
      rw [List.foldl_cons, ih]
      simp only [List.map_cons, List.sum_cons]
      by_cases h : i = t.1 ∧ j = t.2.1
      · simp only [h, and_self, if_true]
        ring
      · simp only [h, if_false]
        ring

theorem accumulate_eq (l : List (Nat × Nat × Cq)) (i j : Nat) :
    accumulate l i j = (l.map fun t => if i = t.1 ∧ j = t.2.1 then t.2.2 else 0).sum := by
  rw [accumulate, accum_foldl]
  simp

/-! ### Bridging list sums and `Finset.range` sums -/

theorem list_range_map_sum (n : Nat) (f : Nat → Cq) :
    ((List.range n).map f).sum = ∑ k ∈ Finset.range n, f k := by
  induction n with
  | zero => simp
  | succ n ih =>
      rw [List.range_succ, List.map_append, List.sum_append, Finset.sum_range_succ, ih]
      simp

theorem sum_map_flatMap {α β : Type} (l : List α) (f : α → List β) (g : β → Cq) :
    ((l.flatMap f).map g).sum = (l.map fun x => ((f x).map g).sum).sum := by
  induction l with
  | nil => rfl
  | cons x l ih => simp [ih]

/-! ### The insertion bijection behind the partial trace

For a dimension list `dims`, a position `idx < dims.length`, a reduced
multi-index `i` over `dims.eraseIdx idx` and a digit `k` of factor `idx`,
`insFlat dims idx i k` is the flat full-space index whose multi-index is
the multi-index of `i` with `k` inserted at position `idx`. -/

/-- The full-space multi-index: digits of the reduced index `i` with digit
`k` inserted at position `idx`. -/
def insVec (dims : List Nat) (idx i k : Nat) : List Nat :=
  List.insertIdx idx k (digitsM (dims.eraseIdx idx) i)

/-- The corresponding flat full-space index. -/
def insFlat (dims : List Nat) (idx i k : Nat) : Nat :=
  radixIndex (insVec dims idx i k) dims

theorem eraseIdx_pos (dims : List Nat) (idx : Nat) (hpos : ∀ x ∈ dims, 0 < x) :
    ∀ x ∈ dims.eraseIdx idx, 0 < x :=
  fun x hx => hpos x ((List.eraseIdx_sublist dims idx).mem hx)

theorem dimAt_mem (dims : List Nat) (idx : Nat) (hidx : idx < dims.length) :
    dims.getD idx 0 ∈ dims := by
  rw [List.getD_eq_getElem _ _ hidx]
  exact List.getElem_mem hidx

theorem dimAt_pos (dims : List Nat) (idx : Nat) (hpos : ∀ x ∈ dims, 0 < x)
    (hidx : idx < dims.length) : 0 < dims.getD idx 0 :=
  hpos _ (dimAt_mem dims idx hidx)

theorem prod_eq_dimAt_mul_eraseIdx (dims : List Nat) (idx : Nat)
    (hidx : idx < dims.length) :
    dims.prod = dims.getD idx 0 * (dims.eraseIdx idx).prod := by
  conv_lhs => rw [list_take_getD_drop dims idx hidx]
  rw [eraseIdx_eq_take_append_drop, List.prod_append, List.prod_cons, List.prod_append]
  ring

theorem div_dimAt_eq (dims : List Nat) (idx : Nat) (hpos : ∀ x ∈ dims, 0 < x)
    (hidx : idx < dims.length) :
    dims.prod / dims.getD idx 0 = (dims.eraseIdx idx).prod := by
  rw [prod_eq_dimAt_mul_eraseIdx dims idx hidx,
    Nat.mul_div_cancel_left _ (dimAt_pos dims idx hpos hidx)]

theorem exists_split (dims : List Nat) (idx : Nat) (hidx : idx < dims.length) :
    ∃ u0 d0 t0, dims = u0 ++ d0 :: t0 ∧ List.length u0 = idx :=
  ⟨dims.take idx, dims.getD idx 0, dims.drop (idx + 1),
    list_take_getD_drop dims idx hidx, length_take_of_lt (Nat.le_of_lt hidx)⟩

theorem insertIdx_len (u t : List Nat) (k n : Nat) (h : u.length = n) :
    List.insertIdx n k (u ++ t) = u ++ k :: t := by
  subst h; exact insertIdx_append_len u t k

theorem eraseIdx_len (u t : List Nat) (k n : Nat) (h : u.length = n) :
    (u ++ k :: t).eraseIdx n = u ++ t := by
  subst h; exact eraseIdx_append_len u t k

theorem getD_len (u t : List Nat) (k n : Nat) (h : u.length = n) :
    (u ++ k :: t).getD n 0 = k := by
  subst h; exact getD_append_len u t k

/-- The digits of a reduced index, with a digit inserted at `idx`, are a
bounded digit vector for the full list. -/
theorem insVec_forall₂ (dims : List Nat) (idx i k : Nat)
    (hpos : ∀ x ∈ dims, 0 < x) (hidx : idx < dims.length)
    (hk : k < dims.getD idx 0) :
    List.Forall₂ (· < ·) (insVec dims idx i k) dims := by
  obtain ⟨u0, d0, t0, rfl, hu0len⟩ := exists_split dims idx hidx
  rw [getD_len u0 t0 d0 idx hu0len] at hk
  rw [insVec, eraseIdx_len u0 t0 d0 idx hu0len]
  have hb : List.Forall₂ (· < ·) (digitsM (u0 ++ t0) i) (u0 ++ t0) :=
    digitsM_forall₂ _ i (by
      intro x hx
      rcases List.mem_append.mp hx with h | h
      · exact hpos x (List.mem_append.mpr (Or.inl h))
      · exact hpos x (List.mem_append.mpr (Or.inr (List.mem_cons_of_mem _ h))))
  have hA : List.Forall₂ (· < ·) ((digitsM (u0 ++ t0) i).take u0.length) u0 :=
    List.forall₂_take_append _ _ _ hb
  have hB : List.Forall₂ (· < ·) ((digitsM (u0 ++ t0) i).drop u0.length) t0 :=
    List.forall₂_drop_append _ _ _ hb
  have hlen : ((digitsM (u0 ++ t0) i).take u0.length).length = idx := by
    rw [List.length_take, digitsM_length, List.length_append]
    omega
  rw [← List.take_append_drop u0.length (digitsM (u0 ++ t0) i),
    insertIdx_len _ _ k idx hlen]
  exact List.rel_append hA (List.Forall₂.cons hk hB)

theorem insFlat_lt (dims : List Nat) (idx i k : Nat)
    (hpos : ∀ x ∈ dims, 0 < x) (hidx : idx < dims.length)
    (hk : k < dims.getD idx 0) :
    insFlat dims idx i k < dims.prod :=
  radixIndex_lt _ _ (insVec_forall₂ dims idx i k hpos hidx hk)

theorem digitsM_insFlat (dims : List Nat) (idx i k : Nat)
    (hpos : ∀ x ∈ dims, 0 < x) (hidx : idx < dims.length)
    (hk : k < dims.getD idx 0) :
    digitsM dims (insFlat dims idx i k) = insVec dims idx i k :=
  digitsM_radixIndex _ _ (insVec_forall₂ dims idx i k hpos hidx hk)

theorem insVec_eraseIdx (dims : List Nat) (idx i k : Nat) (hidx : idx < dims.length) :
    (insVec dims idx i k).eraseIdx idx = digitsM (dims.eraseIdx idx) i := by
  obtain ⟨u0, d0, t0, rfl, hu0len⟩ := exists_split dims idx hidx
  rw [insVec, eraseIdx_len u0 t0 d0 idx hu0len]
  have hlen : ((digitsM (u0 ++ t0) i).take u0.length).length = idx := by
    rw [List.length_take, digitsM_length, List.length_append]
    omega
  rw [← List.take_append_drop u0.length (digitsM (u0 ++ t0) i),
    insertIdx_len _ _ k idx hlen, eraseIdx_len _ _ k idx hlen]

theorem insVec_getD (dims : List Nat) (idx i k : Nat) (hidx : idx < dims.length) :
    (insVec dims idx i k).getD idx 0 = k := by
  obtain ⟨u0, d0, t0, rfl, hu0len⟩ := exists_split dims idx hidx
  rw [insVec, eraseIdx_len u0 t0 d0 idx hu0len]
  have hlen : ((digitsM (u0 ++ t0) i).take u0.length).length = idx := by
    rw [List.length_take, digitsM_length, List.length_append]
    omega
  rw [← List.take_append_drop u0.length (digitsM (u0 ++ t0) i),
    insertIdx_len _ _ k idx hlen, getD_len _ _ k idx hlen]

/-- Erasing position `idx` from the digits of a full-space index gives a
bounded digit vector for the reduced list. -/
theorem eraseIdx_digitsM_forall₂ (dims : List Nat) (idx row : Nat)
    (hpos : ∀ x ∈ dims, 0 < x) (hidx : idx < dims.length) :
    List.Forall₂ (· < ·) ((digitsM dims row).eraseIdx idx) (dims.eraseIdx idx) := by
  have hv : List.Forall₂ (· < ·) (digitsM dims row) dims := digitsM_forall₂ dims row hpos
  rw [eraseIdx_eq_take_append_drop, eraseIdx_eq_take_append_drop]
  have htake : List.Forall₂ (· < ·) ((digitsM dims row).take idx) (dims.take idx) :=
    List.forall₂_take idx hv
  have hdrop : List.Forall₂ (· < ·) ((digitsM dims row).drop (idx + 1))
      (dims.drop (idx + 1)) := List.forall₂_drop (idx + 1) hv
  exact List.rel_append htake hdrop

theorem digit_at_lt (dims : List Nat) (idx row : Nat)
    (hpos : ∀ x ∈ dims, 0 < x) (hidx : idx < dims.length) :
    (digitsM dims row).getD idx 0 < dims.getD idx 0 := by
  have hv : List.Forall₂ (· < ·) (digitsM dims row) dims := digitsM_forall₂ dims row hpos
  exact forall₂_getD_lt _ _ hv idx (by rw [digitsM_length]; exact hidx)

/-- Reduced index of a full-space index: recompose the erased digits. -/
theorem tgtI_lt (dims : List Nat) (idx row : Nat)
    (hpos : ∀ x ∈ dims, 0 < x) (hidx : idx < dims.length) :
    radixIndex ((digitsM dims row).eraseIdx idx) (dims.eraseIdx idx)
      < (dims.eraseIdx idx).prod :=
  radixIndex_lt _ _ (eraseIdx_digitsM_forall₂ dims idx row hpos hidx)

/-- Round trip: a full-space index below the total dimension is recovered
from its reduced index and its digit at position `idx`. -/
theorem insFlat_recompose (dims : List Nat) (idx row : Nat)
    (hpos : ∀ x ∈ dims, 0 < x) (hidx : idx < dims.length)
    (hrow : row < dims.prod) :
    insFlat dims idx
      (radixIndex ((digitsM dims row).eraseIdx idx) (dims.eraseIdx idx))
      ((digitsM dims row).getD idx 0) = row := by
  have hvlen : (digitsM dims row).length = dims.length := digitsM_length dims row
  have hvidx : idx < (digitsM dims row).length := by omega
  have hdig : digitsM (dims.eraseIdx idx)
      (radixIndex ((digitsM dims row).eraseIdx idx) (dims.eraseIdx idx))
      = (digitsM dims row).eraseIdx idx :=
    digitsM_radixIndex _ _ (eraseIdx_digitsM_forall₂ dims idx row hpos hidx)
  have hulen : ((digitsM dims row).take idx).length = idx :=
    length_take_of_lt (Nat.le_of_lt hvidx)
  rw [insFlat, insVec, hdig, eraseIdx_eq_take_append_drop (digitsM dims row) idx,
    insertIdx_len _ _ _ idx hulen, ← list_take_getD_drop (digitsM dims row) idx hvidx,
    radixIndex_digitsM, Nat.mod_eq_of_lt hrow]

/-- The reduced index of an inserted full-space index is the original
reduced index. -/
theorem tgtI_insFlat (dims : List Nat) (idx i k : Nat)
    (hpos : ∀ x ∈ dims, 0 < x) (hidx : idx < dims.length)
    (hi : i < (dims.eraseIdx idx).prod) (hk : k < dims.getD idx 0) :
    radixIndex ((digitsM dims (insFlat dims idx i k)).eraseIdx idx) (dims.eraseIdx idx)
      = i := by
  rw [digitsM_insFlat dims idx i k hpos hidx hk, insVec_eraseIdx dims idx i k hidx,
    radixIndex_digitsM, Nat.mod_eq_of_lt hi]

/-- The digit at position `idx` of an inserted full-space index is the
inserted digit. -/
theorem digit_insFlat (dims : List Nat) (idx i k : Nat)
    (hpos : ∀ x ∈ dims, 0 < x) (hidx : idx < dims.length)
    (hk : k < dims.getD idx 0) :
    (digitsM dims (insFlat dims idx i k)).getD idx 0 = k := by
  rw [digitsM_insFlat dims idx i k hpos hidx hk, insVec_getD dims idx i k hidx]

/-- Reindexing a sum over the full space by (reduced index, erased digit)
pairs. -/
theorem sum_range_insFlat (dims : List Nat) (idx : Nat) (f : Nat → Cq)
    (hpos : ∀ x ∈ dims, 0 < x) (hidx : idx < dims.length) :
    ∑ row ∈ Finset.range dims.prod, f row
      = ∑ p ∈ Finset.range ((dims.eraseIdx idx).prod) ×ˢ
            Finset.range (dims.getD idx 0),
          f (insFlat dims idx p.1 p.2) := by
  refine Finset.sum_nbij'
    (fun row => (radixIndex ((digitsM dims row).eraseIdx idx) (dims.eraseIdx idx),
      (digitsM dims row).getD idx 0))
    (fun p => insFlat dims idx p.1 p.2) ?_ ?_ ?_ ?_ ?_
  · intro row hrow
    rw [Finset.mem_product, Finset.mem_range, Finset.mem_range]
    exact ⟨tgtI_lt dims idx row hpos hidx, digit_at_lt dims idx row hpos hidx⟩
  · intro p hp
    rw [Finset.mem_product, Finset.mem_range, Finset.mem_range] at hp
    rw [Finset.mem_range]
    exact insFlat_lt dims idx p.1 p.2 hpos hidx hp.2
  · intro row hrow
    rw [Finset.mem_range] at hrow
    exact insFlat_recompose dims idx row hpos hidx hrow
  · intro p hp
    rw [Finset.mem_product, Finset.mem_range, Finset.mem_range] at hp
    refine Prod.ext ?_ ?_
    · exact tgtI_insFlat dims idx p.1 p.2 hpos hidx hp.1 hp.2
    · exact digit_insFlat dims idx p.1 p.2 hpos hidx hp.2
  · intro row hrow
    rw [Finset.mem_range] at hrow
    rw [insFlat_recompose dims idx row hpos hidx hrow]

/-! ### The partial-trace loop computes the standard formula -/

theorem accum_flatMap_entry (N M : Nat) (f : Nat → Nat → Nat × Nat × Cq) (i j : Nat) :
    accumulate ((List.range N).flatMap fun row =>
        (List.range M).map fun col => f row col) i j
      = ∑ row ∈ Finset.range N, ∑ col ∈ Finset.range M,
          if i = (f row col).1 ∧ j = (f row col).2.1 then (f row col).2.2 else 0 := by
  rw [accumulate_eq, sum_map_flatMap, list_range_map_sum]
  refine Finset.sum_congr rfl fun row _ => ?_
  rw [List.map_map, list_range_map_sum]
  rfl

/-- Evaluation of one loop cell on a valid state: the target is the pair of
the reduced row index and the column, and the summand is the density entry
at the recomposed flat indices. -/
theorem ptCell_eq (st : QuantumState) (idx row col : Nat)
    (hsv : st._space.Valid) (hidx : idx < st._space._dimensions.length)
    (hrow : row < st._space._dimensions.prod)
    (hcol : col < (st._space._dimensions.eraseIdx idx).prod) :
    ptCell st idx row col
      = (radixIndex ((digitsM st._space._dimensions row).eraseIdx idx)
          (st._space._dimensions.eraseIdx idx),
         col,
         st._density.entry row
           (insFlat st._space._dimensions idx col
             ((digitsM st._space._dimensions row).getD idx 0))) := by
  rw [ptCell]
  simp only [getVector_eq_digitsM, HilbertSpace.dimsUsed_ofDims, reducedDims,
    HilbertSpace.dimsUsed_eq _ hsv]
  rw [radixIndex_digitsM st._space._dimensions row, Nat.mod_eq_of_lt hrow,
    radixIndex_digitsM (st._space._dimensions.eraseIdx idx) col,
    Nat.mod_eq_of_lt hcol]
  rfl

theorem ptMatrix_entry_double_sum (st : QuantumState) (idx : Nat)
    (hsv : st._space.Valid) (hidx : idx < st._space._dimensions.length) (i j : Nat) :
    (ptMatrix st idx).entry i j
      = ∑ row ∈ Finset.range st._space._dimensions.prod,
          ∑ col ∈ Finset.range ((st._space._dimensions.eraseIdx idx).prod),
            if i = radixIndex ((digitsM st._space._dimensions row).eraseIdx idx)
                  (st._space._dimensions.eraseIdx idx) ∧ j = col
            then st._density.entry row
                (insFlat st._space._dimensions idx col
                  ((digitsM st._space._dimensions row).getD idx 0))
            else 0 := by
  have hpos := hsv.2.1
  have hdim := hsv.2.2
  show accumulate (ptContribs st idx) i j = _
  rw [ptContribs, accum_flatMap_entry]
  rw [show st._space.totalDimension = st._space._dimensions.prod from hdim,
    div_dimAt_eq _ _ hpos hidx]
  refine Finset.sum_congr rfl fun row hrow => Finset.sum_congr rfl fun col hcol => ?_
  rw [Finset.mem_range] at hrow hcol
  rw [ptCell_eq st idx row col hsv hidx hrow hcol]

/-- Entries outside the reduced space are never written: they stay zero. -/
theorem ptMatrix_entry_zero (st : QuantumState) (idx : Nat)
    (hsv : st._space.Valid) (hidx : idx < st._space._dimensions.length) (i j : Nat)
    (hout : (st._space._dimensions.eraseIdx idx).prod ≤ i
      ∨ (st._space._dimensions.eraseIdx idx).prod ≤ j) :
    (ptMatrix st idx).entry i j = 0 := by
  have hpos := hsv.2.1
  rw [ptMatrix_entry_double_sum st idx hsv hidx]
  refine Finset.sum_eq_zero fun row hrow => Finset.sum_eq_zero fun col hcol => ?_
  rw [Finset.mem_range] at hrow hcol
  rw [if_neg]
  rintro ⟨hi, hj⟩
  rcases hout with h | h
  · have := tgtI_lt st._space._dimensions idx row hpos hidx
    omega
  · omega

/-- The central claim about the loop: inside the reduced space,
`res[i, j] = Σ_k ρ[(i, k), (j, k)]`, the sum running over the dimension of
the traced-out factor, with `(i, k)` the flat index of the multi-index of
`i` with digit `k` inserted at the traced position. -/
theorem ptMatrix_entry_formula (st : QuantumState) (idx : Nat)
    (hsv : st._space.Valid) (hidx : idx < st._space._dimensions.length) (i j : Nat)
    (hi : i < (st._space._dimensions.eraseIdx idx).prod)
    (hj : j < (st._space._dimensions.eraseIdx idx).prod) :
    (ptMatrix st idx).entry i j
      = ∑ k ∈ Finset.range (st._space._dimensions.getD idx 0),
          st._density.entry (insFlat st._space._dimensions idx i k)
            (insFlat st._space._dimensions idx j k) := by
  have hpos := hsv.2.1
  rw [ptMatrix_entry_double_sum st idx hsv hidx]
  have hinner : ∀ row ∈ Finset.range st._space._dimensions.prod,
      (∑ col ∈ Finset.range ((st._space._dimensions.eraseIdx idx).prod),
        if i = radixIndex ((digitsM st._space._dimensions row).eraseIdx idx)
              (st._space._dimensions.eraseIdx idx) ∧ j = col
        then st._density.entry row
            (insFlat st._space._dimensions idx col
              ((digitsM st._space._dimensions row).getD idx 0))
        else 0)
      = (if i = radixIndex ((digitsM st._space._dimensions row).eraseIdx idx)
            (st._space._dimensions.eraseIdx idx)
        then st._density.entry row
            (insFlat st._space._dimensions idx j
              ((digitsM st._space._dimensions row).getD idx 0))
        else 0) := by
    intro row _
    by_cases hP : i = radixIndex ((digitsM st._space._dimensions row).eraseIdx idx)
        (st._space._dimensions.eraseIdx idx)
    · simp only [hP, true_and, if_true]
      rw [Finset.sum_ite_eq (Finset.range ((st._space._dimensions.eraseIdx idx).prod)) j]
      rw [if_pos (Finset.mem_range.mpr hj)]
    · simp only [hP, false_and, if_false, Finset.sum_const_zero]
  rw [Finset.sum_congr rfl hinner,
    sum_range_insFlat st._space._dimensions idx _ hpos hidx]
  have hcell : ∀ p ∈ Finset.range ((st._space._dimensions.eraseIdx idx).prod)
      ×ˢ Finset.range (st._space._dimensions.getD idx 0),
      (if i = radixIndex
            ((digitsM st._space._dimensions
              (insFlat st._space._dimensions idx p.1 p.2)).eraseIdx idx)
            (st._space._dimensions.eraseIdx idx)
        then st._density.entry (insFlat st._space._dimensions idx p.1 p.2)
            (insFlat st._space._dimensions idx j
              ((digitsM st._space._dimensions
                (insFlat st._space._dimensions idx p.1 p.2)).getD idx 0))
        else 0)
      = (if i = p.1
        then st._density.entry (insFlat st._space._dimensions idx p.1 p.2)
            (insFlat st._space._dimensions idx j p.2)
        else 0) := by
    intro p hp
    rw [Finset.mem_product, Finset.mem_range, Finset.mem_range] at hp
    rw [tgtI_insFlat _ _ _ _ hpos hidx hp.1 hp.2, digit_insFlat _ _ _ _ hpos hidx hp.2]
  rw [Finset.sum_congr rfl hcell, Finset.sum_product]
  have houter : ∀ x ∈ Finset.range ((st._space._dimensions.eraseIdx idx).prod),
      (∑ k ∈ Finset.range (st._space._dimensions.getD idx 0),
        if i = x
        then st._density.entry (insFlat st._space._dimensions idx x k)
            (insFlat st._space._dimensions idx j k)
        else 0)
      = (if i = x
        then ∑ k ∈ Finset.range (st._space._dimensions.getD idx 0),
            st._density.entry (insFlat st._space._dimensions idx x k)
              (insFlat st._space._dimensions idx j k)
        else 0) := by
    intro x _
    by_cases hP : i = x
    · simp only [hP, if_true]
    · simp only [hP, if_false, Finset.sum_const_zero]
  rw [Finset.sum_congr rfl houter,
    Finset.sum_ite_eq (Finset.range ((st._space._dimensions.eraseIdx idx).prod)) i,
    if_pos (Finset.mem_range.mpr hi)]

theorem Cq.conj_conj (a : Cq) : a.conj.conj = a := by
  ext <;> simp [Cq.conj]

theorem Cq.absSq_zero : (0 : Cq).absSq = 0 := by
  simp [Cq.absSq]

theorem Cq.absSq_one : (1 : Cq).absSq = 1 := by
  simp [Cq.absSq]

theorem ptMatrix_rows_eq (st : QuantumState) (idx : Nat) :
    (ptMatrix st idx).rows = (st._space._dimensions.eraseIdx idx).prod := rfl

theorem ptMatrix_cols_eq (st : QuantumState) (idx : Nat) :
    (ptMatrix st idx).cols = (st._space._dimensions.eraseIdx idx).prod := rfl

/-- The loop preserves the trace: summing the diagonal of the result gives
the trace of the original density matrix, i.e. `1` for a valid state. -/
theorem ptMatrix_trace_eq (st : QuantumState) (idx : Nat)
    (hst : st.ValidExact) (hidx : idx < st._space._dimensions.length) :
    (ptMatrix st idx).trace = 1 := by
  obtain ⟨hsv, hrows, hcols, hherm, htr⟩ := hst
  have hpos := hsv.2.1
  have hD : st._density.rows = st._space._dimensions.prod := by
    rw [hrows]
    exact hsv.2.2
  rw [Mat.trace, ptMatrix_rows_eq]
  calc ∑ i ∈ Finset.range ((st._space._dimensions.eraseIdx idx).prod),
        (ptMatrix st idx).entry i i
      = ∑ i ∈ Finset.range ((st._space._dimensions.eraseIdx idx).prod),
          ∑ k ∈ Finset.range (st._space._dimensions.getD idx 0),
            st._density.entry (insFlat st._space._dimensions idx i k)
              (insFlat st._space._dimensions idx i k) := by
        refine Finset.sum_congr rfl fun i hi => ?_
        rw [Finset.mem_range] at hi
        exact ptMatrix_entry_formula st idx hsv hidx i i hi hi
    _ = ∑ p ∈ Finset.range ((st._space._dimensions.eraseIdx idx).prod)
          ×ˢ Finset.range (st._space._dimensions.getD idx 0),
          st._density.entry (insFlat st._space._dimensions idx p.1 p.2)
            (insFlat st._space._dimensions idx p.1 p.2) :=
        (Finset.sum_product _ _
          (fun p => st._density.entry (insFlat st._space._dimensions idx p.1 p.2)
            (insFlat st._space._dimensions idx p.1 p.2))).symm
    _ = ∑ row ∈ Finset.range (st._space._dimensions.prod),
          st._density.entry row row :=
        (sum_range_insFlat st._space._dimensions idx
          (fun row => st._density.entry row row) hpos hidx).symm
    _ = st._density.trace := by rw [Mat.trace, hD]
    _ = 1 := htr

/-- The loop result is exactly Hermitian (entrywise, at every pair of
indices) whenever the input density matrix is. -/
theorem ptMatrix_hermitian (st : QuantumState) (idx : Nat)
    (hst : st.ValidExact) (hidx : idx < st._space._dimensions.length) :
    ∀ i j, (ptMatrix st idx).entry j i = ((ptMatrix st idx).entry i j).conj := by
  obtain ⟨hsv, hrows, hcols, hherm, htr⟩ := hst
  have hpos := hsv.2.1
  have hD : st._density.rows = st._space._dimensions.prod := by
    rw [hrows]
    exact hsv.2.2
  intro i j
  by_cases hi : i < (st._space._dimensions.eraseIdx idx).prod
  · by_cases hj : j < (st._space._dimensions.eraseIdx idx).prod
    · rw [ptMatrix_entry_formula st idx hsv hidx j i hj hi,
        ptMatrix_entry_formula st idx hsv hidx i j hi hj, Cq.conj_sum]
      refine Finset.sum_congr rfl fun k hk => ?_
      rw [Finset.mem_range] at hk
      have hb1 : insFlat st._space._dimensions idx i k < st._density.rows := by
        rw [hD]
        exact insFlat_lt _ _ _ _ hpos hidx hk
      have hb2 : insFlat st._space._dimensions idx j k < st._density.rows := by
        rw [hD]
        exact insFlat_lt _ _ _ _ hpos hidx hk
      exact hherm _ hb1 _ hb2
    · rw [ptMatrix_entry_zero st idx hsv hidx j i (Or.inl (Nat.le_of_not_lt hj)),
        ptMatrix_entry_zero st idx hsv hidx i j (Or.inr (Nat.le_of_not_lt hj)),
        Cq.conj_zero]
  · rw [ptMatrix_entry_zero st idx hsv hidx j i (Or.inr (Nat.le_of_not_lt hi)),
      ptMatrix_entry_zero st idx hsv hidx i j (Or.inl (Nat.le_of_not_lt hi)),
      Cq.conj_zero]

/-! ### Success of the re-validating constructor on the loop result -/

theorem Cq.conj_one : (1 : Cq).conj = 1 := by
  ext <;> simp [Cq.conj]

theorem checkSelfAdjoined_of_hermitian (m : Mat) (hcols : m.cols = m.rows)
    (hherm : ∀ i < m.rows, ∀ j < m.rows, m.entry j i = (m.entry i j).conj) :
    checkMatrixIsSelfAdjoinedB m = true := by
  have hz : (m.subM m.adjointM).frobSq = 0 := by
    rw [Mat.frobSq]
    refine Finset.sum_eq_zero fun i hi => Finset.sum_eq_zero fun j hj => ?_
    rw [Finset.mem_range] at hi hj
    have hi2 : i < m.rows := hi
    have hj2 : j < m.rows := by
      have : j < m.cols := hj
      omega
    have hij : m.entry i j = (m.entry j i).conj := hherm j hj2 i hi2
    show (m.entry i j - (m.entry j i).conj).absSq = 0
    rw [← hij, sub_self, Cq.absSq_zero]
  rw [checkMatrixIsSelfAdjoinedB, Mat.isApprox, hz, decide_eq_true_iff]
  refine mul_nonneg (by norm_num [precSq]) (le_min ?_ ?_) <;> exact Mat.frobSq_nonneg _

theorem checkTraceOneB_of_exact (m : Mat) (h : m.trace = 1) :
    checkTraceOneB m = true := by
  rw [checkTraceOneB, h, sub_self, Cq.absSq_zero, decide_eq_true_iff]
  norm_num [epsSq, epsQ]

theorem makeValidated_ok (solver : Solver) (m : Mat) (space : HilbertSpace)
    (hherm : checkMatrixIsSelfAdjoinedB m = true) (htr : checkTraceOneB m = true)
    (hdim : space.totalDimension = m.rows)
    (hev : ((solver m).1).any badEigenValue = false) :
    QuantumState.makeValidated solver m space
      = .ok ⟨m, space, (solver m).1, (solver m).2⟩ := by
  have hsp : checkSpaceDimensionB m space = true := by
    rw [checkSpaceDimensionB, hdim]
    simp
  simp only [QuantumState.makeValidated, hherm, htr, hsp, hev]
  simp

/-! ### The vector branch on a 1×1 loop result -/

theorem vectorToDensity_entry (m : Mat) (i j : Nat) :
    (vectorToDensity m).entry i j
      = Cq.ofRat (1 / (∑ r ∈ Finset.range m.rows, (m.entry r 0).absSq))
        * (m.entry i 0 * m.entry j 0) := rfl

theorem vectorToDensity_rows (m : Mat) : (vectorToDensity m).rows = m.rows := rfl

theorem constructedDensity_rows (m : Mat) :
    (QuantumState.constructedDensity m).rows = m.rows := by
  rw [QuantumState.constructedDensity]
  split <;> rfl

theorem ptMatrix_entry_00 (st : QuantumState) (idx : Nat)
    (hst : st.ValidExact) (hidx : idx < st._space._dimensions.length)
    (hprod : (st._space._dimensions.eraseIdx idx).prod = 1) :
    (ptMatrix st idx).entry 0 0 = 1 := by
  have htr := ptMatrix_trace_eq st idx hst hidx
  rw [Mat.trace, ptMatrix_rows_eq, hprod] at htr
  simpa using htr

/-- Inside the reduced space, the density matrix committed by the
constructor agrees with the loop result — also when the reduced space is
one-dimensional and the constructor takes the single-column (outer
product) branch, because the single entry is then exactly `1`. -/
theorem constructedDensity_ptMatrix_entry (st : QuantumState) (idx : Nat)
    (hst : st.ValidExact) (hidx : idx < st._space._dimensions.length) (i j : Nat)
    (hi : i < (st._space._dimensions.eraseIdx idx).prod)
    (hj : j < (st._space._dimensions.eraseIdx idx).prod) :
    (QuantumState.constructedDensity (ptMatrix st idx)).entry i j
      = (ptMatrix st idx).entry i j := by
  rw [QuantumState.constructedDensity]
  by_cases h1 : (ptMatrix st idx).cols = 1
  · rw [if_pos h1]
    have hprod : (st._space._dimensions.eraseIdx idx).prod = 1 := by
      rw [← ptMatrix_cols_eq st idx]
      exact h1
    have hi0 : i = 0 := by omega
    have hj0 : j = 0 := by omega
    subst hi0
    subst hj0
    have hpt00 := ptMatrix_entry_00 st idx hst hidx hprod
    rw [vectorToDensity_entry, ptMatrix_rows_eq, hprod]
    rw [show (∑ r ∈ Finset.range 1, ((ptMatrix st idx).entry r 0).absSq)
      = ((ptMatrix st idx).entry 0 0).absSq from by simp]
    rw [hpt00, Cq.absSq_one, show (1 : ℚ) / 1 = 1 from by norm_num,
      show Cq.ofRat 1 = 1 from rfl]
    ring
  · rw [if_neg h1]

theorem constructedDensity_ptMatrix_trace (st : QuantumState) (idx : Nat)
    (hst : st.ValidExact) (hidx : idx < st._space._dimensions.length) :
    (QuantumState.constructedDensity (ptMatrix st idx)).trace = 1 := by
  have h := ptMatrix_trace_eq st idx hst hidx
  rw [Mat.trace] at h ⊢
  rw [constructedDensity_rows, ptMatrix_rows_eq] at *
  rw [← h]
  refine Finset.sum_congr rfl fun i hi => ?_
  rw [Finset.mem_range] at hi
  exact constructedDensity_ptMatrix_entry st idx hst hidx i i hi hi

theorem constructedDensity_ptMatrix_herm (st : QuantumState) (idx : Nat)
    (hst : st.ValidExact) (hidx : idx < st._space._dimensions.length) :
    ∀ i < (QuantumState.constructedDensity (ptMatrix st idx)).rows,
      ∀ j < (QuantumState.constructedDensity (ptMatrix st idx)).rows,
        (QuantumState.constructedDensity (ptMatrix st idx)).entry j i
          = ((QuantumState.constructedDensity (ptMatrix st idx)).entry i j).conj := by
  intro i hi j hj
  rw [constructedDensity_rows, ptMatrix_rows_eq] at hi hj
  rw [constructedDensity_ptMatrix_entry st idx hst hidx j i hj hi,
    constructedDensity_ptMatrix_entry st idx hst hidx i j hi hj]
  exact ptMatrix_hermitian st idx hst hidx i j

theorem constructedDensity_ptMatrix_cols (st : QuantumState) (idx : Nat) :
    (QuantumState.constructedDensity (ptMatrix st idx)).cols
      = (QuantumState.constructedDensity (ptMatrix st idx)).rows := by
  rw [QuantumState.constructedDensity]
  split <;> rfl

/-- On a valid state with an in-range index over a space of rank at least
2, `partialTrace` succeeds, returning the validated loop result over the
reduced space (provided the eigensolver reports no spurious negative
eigenvalue on it, as Eigen does on a positive-semidefinite matrix). -/
theorem partialTrace_eq_ok (solver : Solver) (st : QuantumState) (index : Int)
    (hst : st.ValidExact) (hrank2 : 2 ≤ st._space._rank)
    (h0 : 0 ≤ index) (hin : index < (st._space._rank : Int))
    (hev : ((solver (QuantumState.constructedDensity
        (ptMatrix st index.toNat))).1).any badEigenValue = false) :
    QuantumState.partialTrace solver st index
      = .ok ⟨QuantumState.constructedDensity (ptMatrix st index.toNat),
             HilbertSpace.ofDims (reducedDims st._space index.toNat),
             (solver (QuantumState.constructedDensity (ptMatrix st index.toNat))).1,
             (solver (QuantumState.constructedDensity (ptMatrix st index.toNat))).2⟩ := by
  have hsv := hst.1
  have hpos := hsv.2.1
  have hlen : st._space._rank = st._space._dimensions.length := hsv.1
  have hidxN : index.toNat < st._space._dimensions.length := by omega
  have hndpos : ∀ x ∈ st._space._dimensions.eraseIdx index.toNat, 0 < x :=
    eraseIdx_pos _ _ hpos
  have hmk : HilbertSpace.mkDims (reducedDims st._space index.toNat)
      = .ok (HilbertSpace.ofDims (reducedDims st._space index.toNat)) := by
    rw [HilbertSpace.mkDims, if_neg]
    intro hc
    have h0mem : (0 : Nat) ∈ st._space._dimensions.eraseIdx index.toNat := by
      simpa [reducedDims] using hc
    exact absurd (hndpos 0 h0mem) (by norm_num)
  have hndlen : (st._space._dimensions.eraseIdx index.toNat).length
      = st._space._dimensions.length - 1 := by
    have := List.length_eraseIdx_add_one hidxN
    omega
  have hrank0 : ¬ (HilbertSpace.ofDims (reducedDims st._space index.toNat))._rank = 0 := by
    show ¬ (reducedDims st._space index.toNat).length = 0
    rw [reducedDims, hndlen]
    omega
  rw [QuantumState.partialTrace, if_neg (by omega : ¬ index < 0),
    if_neg (show ¬ (st._space.rank : Int) ≤ index from by
      rw [HilbertSpace.rank]; omega)]
  simp only [hmk]
  rw [if_neg hrank0]
  have hcd : checkMatrixIsSelfAdjoinedB
      (QuantumState.constructedDensity (ptMatrix st index.toNat)) = true :=
    checkSelfAdjoined_of_hermitian _ (constructedDensity_ptMatrix_cols st index.toNat)
      (constructedDensity_ptMatrix_herm st index.toNat hst hidxN)
  have hct : checkTraceOneB
      (QuantumState.constructedDensity (ptMatrix st index.toNat)) = true :=
    checkTraceOneB_of_exact _ (constructedDensity_ptMatrix_trace st index.toNat hst hidxN)
  have hdim : (HilbertSpace.ofDims (reducedDims st._space index.toNat)).totalDimension
      = (QuantumState.constructedDensity (ptMatrix st index.toNat)).rows := by
    rw [constructedDensity_rows, ptMatrix_rows_eq]
    rfl
  rw [QuantumState.make, if_neg (show ¬ ((ptMatrix st index.toNat).cols ≠ 1
      ∧ (ptMatrix st index.toNat).rows ≠ (ptMatrix st index.toNat).cols) from by
    rintro ⟨-, hne⟩
    exact hne rfl)]
  exact makeValidated_ok solver _ _ hcd hct hdim hev

/-! ### The error branches of partialTrace -/

theorem partialTrace_neg (solver : Solver) (st : QuantumState) (index : Int)
    (h : index < 0) :
    QuantumState.partialTrace solver st index = .error .invalidArgument := by
  rw [QuantumState.partialTrace, if_pos h]

theorem partialTrace_ge (solver : Solver) (st : QuantumState) (index : Int)
    (h0 : ¬ index < 0) (h : (st._space._rank : Int) ≤ index) :
    QuantumState.partialTrace solver st index = .error .invalidArgument := by
  rw [QuantumState.partialTrace, if_neg h0,
    if_pos (show (st._space.rank : Int) ≤ index from h)]

/-- On a rank-1 space with the (only) in-range index, the reduced space is
empty and the first `getIndex` call reads out of bounds. -/
theorem partialTrace_rank1 (solver : Solver) (st : QuantumState) (index : Int)
    (hsv : st._space.Valid) (h0 : 0 ≤ index) (hin : index < (st._space._rank : Int))
    (hr1 : st._space._rank = 1) :
    QuantumState.partialTrace solver st index = .error .undefinedBehavior := by
  have hlen : st._space._dimensions.length = 1 := by
    rw [← hsv.1, hr1]
  have hidxN : index.toNat < st._space._dimensions.length := by omega
  have hnd : (st._space._dimensions.eraseIdx index.toNat).length = 0 := by
    have := List.length_eraseIdx_add_one hidxN
    omega
  have hndnil : st._space._dimensions.eraseIdx index.toNat = [] :=
    List.eq_nil_of_length_eq_zero hnd
  have hmk : HilbertSpace.mkDims (reducedDims st._space index.toNat)
      = .ok (HilbertSpace.ofDims []) := by
    rw [HilbertSpace.mkDims, reducedDims, hndnil]
    rfl
  rw [QuantumState.partialTrace, if_neg (by omega : ¬ index < 0),
    if_neg (show ¬ (st._space.rank : Int) ≤ index from by
      rw [HilbertSpace.rank]; omega)]
  simp only [hmk]
  rfl

/-! ### The maximally mixed state -/

/-- The density matrix `(1/n)·I` of the maximally mixed state of dimension
`n`. -/
def maximallyMixedMat (n : Nat) : Mat :=
  ⟨n, n, fun i j => if i = j then Cq.ofRat (1 / (n : ℚ)) else 0⟩

theorem Cq.ofRat_mul (a b : ℚ) : Cq.ofRat (a * b) = Cq.ofRat a * Cq.ofRat b := by
  ext <;> simp [Cq.ofRat]

theorem Cq.ofRat_add (a b : ℚ) : Cq.ofRat (a + b) = Cq.ofRat a + Cq.ofRat b := by
  ext <;> simp [Cq.ofRat]

theorem Cq.ofRat_one : Cq.ofRat 1 = 1 := rfl

theorem Cq.sub_one_ofRat (q : ℚ) : Cq.ofRat q - 1 = Cq.ofRat (q - 1) := by
  ext <;> simp [Cq.ofRat]

theorem Cq.absSq_ofRat (q : ℚ) : (Cq.ofRat q).absSq = q * q := by
  simp [Cq.ofRat, Cq.absSq]

theorem Cq.natCast_ofRat (n : ℕ) : (n : Cq) = Cq.ofRat (n : ℚ) := by
  induction n with
  | zero => rfl
  | succ n ih =>
      rw [Nat.cast_succ, ih, Nat.cast_succ, Cq.ofRat_add, Cq.ofRat_one]

theorem maximallyMixed_sq_trace (n : Nat) (hn : 0 < n) :
    ((maximallyMixedMat n).mul (maximallyMixedMat n)).trace
      = Cq.ofRat (1 / (n : ℚ)) := by
  have hterm : ∀ i ∈ Finset.range n,
      ((maximallyMixedMat n).mul (maximallyMixedMat n)).entry i i
        = Cq.ofRat (1 / (n : ℚ)) * Cq.ofRat (1 / (n : ℚ)) := by
    intro i hi
    rw [Finset.mem_range] at hi
    show (∑ k ∈ Finset.range n, (maximallyMixedMat n).entry i k
        * (maximallyMixedMat n).entry k i) = _
    have hsummand : ∀ k ∈ Finset.range n,
        (maximallyMixedMat n).entry i k * (maximallyMixedMat n).entry k i
          = if i = k then Cq.ofRat (1 / (n : ℚ)) * Cq.ofRat (1 / (n : ℚ)) else 0 := by
      intro k _
      by_cases hik : i = k
      · subst hik
        simp [maximallyMixedMat]
      · have hki : ¬ k = i := fun h => hik h.symm
        simp [maximallyMixedMat, hik, hki]
    rw [Finset.sum_congr rfl hsummand,
      Finset.sum_ite_eq (Finset.range n) i
        (fun _ => Cq.ofRat (1 / (n : ℚ)) * Cq.ofRat (1 / (n : ℚ))),
      if_pos (Finset.mem_range.mpr hi)]
  rw [Mat.trace]
  rw [show ((maximallyMixedMat n).mul (maximallyMixedMat n)).rows = n from rfl]
  rw [Finset.sum_congr rfl (fun i hi => hterm i hi), Finset.sum_const,
    Finset.card_range, nsmul_eq_mul, Cq.natCast_ofRat, ← Cq.ofRat_mul,
    ← Cq.ofRat_mul]
  congr 1
  have hq : (0 : ℚ) < (n : ℚ) := by exact_mod_cast hn
  field_simp

/-! ### The Kronecker product under the 2-factor partial trace -/

theorem insFlat_two (a b i k : Nat) (hi : i < a) :
    insFlat [a, b] 1 i k = i * b + k := by
  rw [insFlat, insVec,
    show ([a, b] : List Nat).eraseIdx 1 = [a] from rfl,
    show digitsM [a] i = [i % a] from rfl, Nat.mod_eq_of_lt hi,
    show List.insertIdx 1 k [i] = [i, k] from rfl]
  simp [radixIndex]

theorem kron_at_ins (ρA ρB : Mat) (b : Nat) (hbr : ρB.rows = b)
    (hbc : ρB.cols = b) (hbpos : 0 < b) (i j k : Nat) (hk : k < b) :
    (KroneckerTensor.product ρA ρB).entry (i * b + k) (j * b + k)
      = ρA.entry i j * ρB.entry k k := by
  rw [KroneckerTensor.product]
  show ρA.entry ((i * b + k) / ρB.rows) ((j * b + k) / ρB.cols)
      * ρB.entry ((i * b + k) % ρB.rows) ((j * b + k) % ρB.cols) = _
  rw [hbr, hbc]
  have hdiv : ∀ x : Nat, (x * b + k) / b = x := by
    intro x
    rw [Nat.mul_comm x b, Nat.mul_add_div hbpos, Nat.div_eq_of_lt hk, Nat.add_zero]
  have hmod : ∀ x : Nat, (x * b + k) % b = k := by
    intro x
    rw [Nat.mul_comm x b, Nat.mul_add_mod, Nat.mod_eq_of_lt hk]
  rw [hdiv i, hdiv j, hmod i, hmod j]

/-! ## Concrete objects used by the witnesses and counterexamples -/

/-- The identity-pattern matrix. -/
def idMat (n : Nat) : Mat := ⟨n, n, fun i j => if i = j then 1 else 0⟩

/-- The pure state `|0⟩⟨0|` over the single-factor space of dimension 2. -/
def pureState2 : QuantumState :=
  ⟨⟨2, 2, fun i j => if i = 0 ∧ j = 0 then 1 else 0⟩,
   HilbertSpace.ofDims [2], [0, 1], idMat 2⟩

/-- The two-qubit pure state `|00⟩⟨00|` over the space with factors `[2, 2]`. -/
def pureState22 : QuantumState :=
  ⟨⟨4, 4, fun i j => if i = 0 ∧ j = 0 then 1 else 0⟩,
   HilbertSpace.ofDims [2, 2], [0, 0, 0, 1], idMat 4⟩

/-- A Hermitian candidate with trace 2: passes the square, dimension and
Hermitian checks of `setMatrix` but fails the trace check. -/
def mBad2 : Mat := ⟨2, 2, fun i j => if i = 0 ∧ j = 0 then ⟨2, 0⟩ else 0⟩

/-- The complex column vector `(1, i)`. -/
def vecCI : Mat := ⟨2, 1, fun i _ => if i = 0 then ⟨1, 0⟩ else ⟨0, 1⟩⟩

/-- The projector `|0⟩⟨0|` as a bare 2×2 matrix. -/
def rhoA2 : Mat := ⟨2, 2, fun i j => if i = 0 ∧ j = 0 then 1 else 0⟩

/-- The maximally mixed state of dimension 2. -/
def mmState2 : QuantumState :=
  ⟨maximallyMixedMat 2, HilbertSpace.ofDims [2], [1/2, 1/2], idMat 2⟩

/-! ## The claims -/

/-- C9: constructing a `HilbertSpace` from the empty dimension list succeeds
with rank 0 and total dimension 1, the default constructor yields rank 0
and total dimension 0, and the two compare equal under `operator==`
(dimension-sequence comparison), so equal spaces can have different total
dimensions. -/
theorem C9_empty_vs_default :
    HilbertSpace.mkDims [] = .ok (HilbertSpace.ofDims [])
    ∧ (HilbertSpace.ofDims [])._rank = 0 ∧ (HilbertSpace.ofDims [])._dim = 1
    ∧ HilbertSpace.default._rank = 0 ∧ HilbertSpace.default._dim = 0
    ∧ HilbertSpace.eqb (HilbertSpace.ofDims []) HilbertSpace.default = true
    ∧ (HilbertSpace.ofDims [])._dim ≠ HilbertSpace.default._dim := by
  refine ⟨rfl, rfl, rfl, rfl, rfl, rfl, ?_⟩
  decide

/-- C4 (counterexample to the claim as stated): the default constructor
produces a space whose cached total dimension `0` differs from the product
of its (empty) dimension list, which is `1`; and `tensorWith` applied to a
default-constructed space keeps the broken invariant (total dimension `0`
against a dimension-list product of `2`). -/
theorem C4_counterexample :
    HilbertSpace.default._dim ≠ HilbertSpace.default._dimensions.prod
    ∧ HilbertSpace.mkDim 2 = .ok (HilbertSpace.ofDims [2])
    ∧ (HilbertSpace.default.tensorWith (HilbertSpace.ofDims [2]))._dimensions.prod = 2
    ∧ (HilbertSpace.default.tensorWith (HilbertSpace.ofDims [2]))._dim = 0 := by
  refine ⟨by decide, rfl, by decide, rfl⟩

/-- C4 (amended): `totalDimension = product of dimensions` and
`rank = length of dimensions` hold after the one-argument and list
constructors and are preserved by `tensorWith` on spaces satisfying them;
the default constructor satisfies the rank invariant but caches total
dimension `0` while the empty product is `1`. -/
theorem C4_invariants :
    (∀ (d : Nat) (s : HilbertSpace), HilbertSpace.mkDim d = .ok s →
      s._dim = s._dimensions.prod ∧ s._rank = s._dimensions.length)
    ∧ (∀ (l : List Nat) (s : HilbertSpace), HilbertSpace.mkDims l = .ok s →
      s._dim = s._dimensions.prod ∧ s._rank = s._dimensions.length)
    ∧ (∀ a b : HilbertSpace,
      a._dim = a._dimensions.prod → a._rank = a._dimensions.length →
      b._dim = b._dimensions.prod → b._rank = b._dimensions.length →
      (a.tensorWith b)._dim = (a.tensorWith b)._dimensions.prod
        ∧ (a.tensorWith b)._rank = (a.tensorWith b)._dimensions.length)
    ∧ (HilbertSpace.default._rank = HilbertSpace.default._dimensions.length
      ∧ HilbertSpace.default._dim = 0
      ∧ HilbertSpace.default._dimensions.prod = 1) := by
  refine ⟨?_, ?_, ?_, rfl, rfl, rfl⟩
  · intro d s h
    rw [HilbertSpace.mkDim] at h
    split_ifs at h with hd
    have h2 := Except.ok.inj h
    subst h2
    constructor <;> simp
  · intro l s h
    rw [HilbertSpace.mkDims] at h
    split_ifs at h with hl
    have h2 := Except.ok.inj h
    subst h2
    exact ⟨rfl, rfl⟩
  · intro a b ha1 ha2 hb1 hb2
    rw [HilbertSpace.tensorWith]
    constructor
    · show a._dim * b._dim = (a._dimensions ++ b._dimensions.take b._rank).prod
      rw [hb2, List.take_length, List.prod_append, ha1, hb1]
    · show a._rank + b._rank = (a._dimensions ++ b._dimensions.take b._rank).length
      rw [hb2, List.take_length, List.length_append, ha2]

/-- C4 witness: the amended invariants evaluated at the single-factor
constructor with dimension 3 and at the tensor of two constructed spaces. -/
theorem C4_invariants_witness :
    HilbertSpace.mkDim 3 = .ok (HilbertSpace.ofDims [3])
    ∧ ((HilbertSpace.ofDims [3])._dim = (HilbertSpace.ofDims [3])._dimensions.prod
      ∧ (HilbertSpace.ofDims [3])._rank = (HilbertSpace.ofDims [3])._dimensions.length)
    ∧ (((HilbertSpace.ofDims [2]).tensorWith (HilbertSpace.ofDims [3]))._dim
        = ((HilbertSpace.ofDims [2]).tensorWith (HilbertSpace.ofDims [3]))._dimensions.prod
      ∧ ((HilbertSpace.ofDims [2]).tensorWith (HilbertSpace.ofDims [3]))._rank
        = ((HilbertSpace.ofDims [2]).tensorWith
            (HilbertSpace.ofDims [3]))._dimensions.length) :=
  ⟨rfl,
   C4_invariants.1 3 (HilbertSpace.ofDims [3]) rfl,
   C4_invariants.2.2.1 (HilbertSpace.ofDims [2]) (HilbertSpace.ofDims [3])
     (by decide) (by decide) (by decide) (by decide)⟩

/-- C5: on every constructed space of positive rank, recomposing the digits
produced by `getVector` with `getIndex` returns the original flat index, for
every index below the total dimension. -/
theorem C5_roundtrip :
    ∀ S : HilbertSpace, S.Valid → 1 ≤ S._rank →
      ∀ i < S.totalDimension, S.getIndex (S.getVector i) = .ok i := by
  intro S hsv hr i hi
  have hdu : S.dimsUsed = S._dimensions := HilbertSpace.dimsUsed_eq S hsv
  have hlen : (S.getVector i).length = S._rank := by
    rw [getVector_length, hdu, ← hsv.1]
  rw [HilbertSpace.getIndex, if_neg (not_ne_iff.mpr hlen),
    if_neg (by omega : ¬ S._rank = 0)]
  congr 1
  rw [radixIndex_getVector, hdu, ← hsv.2.2]
  exact Nat.mod_eq_of_lt hi

/-- C5 witness: the round trip on the space with factors `[2, 3]` at flat
index 5. -/
theorem C5_roundtrip_witness :
    (HilbertSpace.ofDims [2, 3]).Valid
    ∧ 5 < (HilbertSpace.ofDims [2, 3]).totalDimension
    ∧ (HilbertSpace.ofDims [2, 3]).getIndex
        ((HilbertSpace.ofDims [2, 3]).getVector 5) = .ok 5 :=
  ⟨by decide, by decide,
   C5_roundtrip (HilbertSpace.ofDims [2, 3]) (by decide) (by decide) 5 (by decide)⟩

/-- C10: `getVector` performs no range check — for every index, also one at
or above the total dimension, it returns one digit per factor, each digit
below its factor dimension, and recomposition returns the index modulo the
total dimension. -/
theorem C10_getVector_mod :
    ∀ S : HilbertSpace, S.Valid → 1 ≤ S._rank →
      ∀ index : Nat,
        (S.getVector index).length = S._rank
        ∧ (∀ pos < S._rank,
            (S.getVector index).getD pos 0 < S._dimensions.getD pos 0)
        ∧ S.getIndex (S.getVector index) = .ok (index % S.totalDimension) := by
  intro S hsv hr index
  have hdu : S.dimsUsed = S._dimensions := HilbertSpace.dimsUsed_eq S hsv
  have hpos : ∀ d ∈ S.dimsUsed, 0 < d := by
    rw [hdu]
    exact hsv.2.1
  have hlen : (S.getVector index).length = S._rank := by
    rw [getVector_length, hdu, ← hsv.1]
  refine ⟨hlen, ?_, ?_⟩
  · intro pos hpos2
    have hf := getVector_forall₂ S index hpos
    have := forall₂_getD_lt _ _ hf pos (by omega)
    rwa [hdu] at this
  · rw [HilbertSpace.getIndex, if_neg (not_ne_iff.mpr hlen),
      if_neg (by omega : ¬ S._rank = 0)]
    congr 1
    rw [radixIndex_getVector, hdu, ← hsv.2.2]
    rfl

/-- C10 witness: the space with factors `[2, 3]` at the out-of-range index
100 (total dimension 6): the digits are in range and recomposition gives
`100 % 6 = 4`. -/
theorem C10_getVector_mod_witness :
    (HilbertSpace.ofDims [2, 3]).Valid
    ∧ ((HilbertSpace.ofDims [2, 3]).getVector 100).length
        = (HilbertSpace.ofDims [2, 3])._rank
    ∧ (∀ pos < (HilbertSpace.ofDims [2, 3])._rank,
        ((HilbertSpace.ofDims [2, 3]).getVector 100).getD pos 0
          < (HilbertSpace.ofDims [2, 3])._dimensions.getD pos 0)
    ∧ (HilbertSpace.ofDims [2, 3]).getIndex
        ((HilbertSpace.ofDims [2, 3]).getVector 100)
        = .ok (100 % (HilbertSpace.ofDims [2, 3]).totalDimension) := by
  refine ⟨by decide, ?_⟩
  exact C10_getVector_mod (HilbertSpace.ofDims [2, 3]) (by decide) (by decide) 100

/-- C6: the static `tensor` concatenates the dimension sequences in order,
adds the ranks and multiplies the cached total dimensions, producing a
well-formed space; the C++ static form copies its first argument and never
mutates either input (the model is a pure function of both). -/
theorem C6_tensor_concat :
    ∀ A B : HilbertSpace, A.Valid → B.Valid →
      (HilbertSpace.tensor A B)._dimensions = A._dimensions ++ B._dimensions
      ∧ (HilbertSpace.tensor A B)._rank = A._rank + B._rank
      ∧ (HilbertSpace.tensor A B)._dim = A._dim * B._dim
      ∧ (HilbertSpace.tensor A B).Valid := by
  intro A B hA hB
  have hdims : (HilbertSpace.tensor A B)._dimensions
      = A._dimensions ++ B._dimensions := by
    show A._dimensions ++ B._dimensions.take B._rank = _
    rw [hB.1, List.take_length]
  refine ⟨hdims, rfl, rfl, ?_, ?_, ?_⟩
  · show A._rank + B._rank = (HilbertSpace.tensor A B)._dimensions.length
    rw [hdims, List.length_append, hA.1, hB.1]
  · intro d hd
    rw [hdims] at hd
    rcases List.mem_append.mp hd with h | h
    · exact hA.2.1 d h
    · exact hB.2.1 d h
  · show A._dim * B._dim = (HilbertSpace.tensor A B)._dimensions.prod
    rw [hdims, List.prod_append, hA.2.2, hB.2.2]

/-- C6 witness: the tensor of the constructed spaces `[2]` and `[3, 4]`. -/
theorem C6_tensor_concat_witness :
    (HilbertSpace.ofDims [2]).Valid ∧ (HilbertSpace.ofDims [3, 4]).Valid
    ∧ (HilbertSpace.tensor (HilbertSpace.ofDims [2])
        (HilbertSpace.ofDims [3, 4]))._dimensions = [2] ++ [3, 4]
    ∧ (HilbertSpace.tensor (HilbertSpace.ofDims [2])
        (HilbertSpace.ofDims [3, 4]))._rank = 1 + 2
    ∧ (HilbertSpace.tensor (HilbertSpace.ofDims [2])
        (HilbertSpace.ofDims [3, 4]))._dim = 2 * 12 := by
  have h := C6_tensor_concat (HilbertSpace.ofDims [2]) (HilbertSpace.ofDims [3, 4])
    (by decide) (by decide)
  exact ⟨by decide, by decide, h.1, h.2.1, h.2.2.1⟩

/-- C3: evaluation of the code at the failing input.  The constructor's
vector branch computes `matr * matr.transpose()` — the transpose, not the
adjoint — so for the complex column vector `(1, i)` the committed matrix is
`[[1/2, i/2], [i/2, -1/2]]`, which is not Hermitian (and has trace 0); the
Hermitian check then throws `invalid_argument` instead of producing the
projector `(v/‖v‖)(v/‖v‖)†` the claim (and the spec's "pure-state density
matrix") requires. -/
theorem C3_vector_constructor_fails_on_complex :
    QuantumState.make diagSolver vecCI (HilbertSpace.ofDims [2])
      = .error .invalidArgument := by
  with_unfolding_all rfl

/-- C8: `isPure` is the strict test `|trace(ρ²) - 1| < 1e-15` (stated with
the squared modulus, which is the same comparison); it returns `true` on
every idempotent valid density matrix (a rank-1 projector), and `false` on
the maximally mixed state of every dimension `n ≥ 2`. -/
theorem C8_isPure :
    (∀ st : QuantumState,
      (QuantumState.isPure st = true
        ↔ ((st._density.mul st._density).trace - 1).absSq < epsSq))
    ∧ (∀ st : QuantumState, st.ValidExact →
        (∀ i < st._density.rows, ∀ j < st._density.rows,
          (st._density.mul st._density).entry i j = st._density.entry i j) →
        QuantumState.isPure st = true)
    ∧ (∀ n : Nat, 2 ≤ n → ∀ st : QuantumState,
        st._density = maximallyMixedMat n → QuantumState.isPure st = false) := by
  refine ⟨fun st => decide_eq_true_iff, ?_, ?_⟩
  · intro st hst hproj
    have htr2 : (st._density.mul st._density).trace = 1 := by
      rw [Mat.trace,
        show (st._density.mul st._density).rows = st._density.rows from rfl]
      rw [Finset.sum_congr rfl fun i hi =>
        hproj i (Finset.mem_range.mp hi) i (Finset.mem_range.mp hi)]
      rw [← Mat.trace]
      exact hst.2.2.2.2
    rw [QuantumState.isPure, htr2, sub_self, Cq.absSq_zero]
    rw [decide_eq_true_iff]
    norm_num [epsSq, epsQ]
  · intro n hn st hd
    rw [QuantumState.isPure, hd, maximallyMixed_sq_trace n (by omega),
      Cq.sub_one_ofRat, Cq.absSq_ofRat]
    rw [decide_eq_false_iff_not]
    have hq : (2 : ℚ) ≤ (n : ℚ) := by exact_mod_cast hn
    have h1 : (1 : ℚ) / (n : ℚ) ≤ 1 / 2 :=
      one_div_le_one_div_of_le (by norm_num) hq
    have h2 : (1 : ℚ) / (n : ℚ) - 1 ≤ -(1 / 2) := by linarith
    have h3 : (1 : ℚ) / 4 ≤ ((1 : ℚ) / (n : ℚ) - 1) * ((1 : ℚ) / (n : ℚ) - 1) := by
      nlinarith
    have h4 : epsSq < (1 : ℚ) / 4 := by norm_num [epsSq, epsQ]
    linarith

/-- C8 witness: `isPure` is `true` on the projector `|0⟩⟨0|` and `false` on
the maximally mixed state of dimension 2. -/
theorem C8_isPure_witness :
    pureState2.ValidExact
    ∧ QuantumState.isPure pureState2 = true
    ∧ mmState2._density = maximallyMixedMat 2
    ∧ QuantumState.isPure mmState2 = false := by
  refine ⟨of_decide_eq_true (by with_unfolding_all rfl), ?_, rfl, ?_⟩
  · exact C8_isPure.2.1 pureState2 (of_decide_eq_true (by with_unfolding_all rfl))
      (of_decide_eq_true (by with_unfolding_all rfl))
  · exact C8_isPure.2.2 2 (by norm_num) mmState2 rfl

/-- C2 (counterexample to the claim as stated): on the valid state
`|0⟩⟨0|`, `setMatrix` with the Hermitian trace-2 candidate
`[[2, 0], [0, 0]]` raises `invalid_argument` (the trace check fails), yet
the object's `_eigenValues` cache has already been overwritten with the
candidate's spectrum `[0, 2]` — the call is not strongly
exception-safe. -/
theorem C2_counterexample :
    pureState2.ValidExact
    ∧ (QuantumState.setMatrix diagSolver pureState2 mBad2).2 = some .invalidArgument
    ∧ ¬ (QuantumState.setMatrix diagSolver pureState2 mBad2).1._eigenValues
        = pureState2._eigenValues :=
  of_decide_eq_true (by with_unfolding_all rfl)

/-- C2 (amended): when `setMatrix` raises, `_density` and `_space` are
always unchanged; when the failure happens at the square, space-dimension
or Hermitian check, the whole object is unchanged; but when those checks
pass and the density-matrix check (eigenvalue sign or trace) fails, the
eigenvalue/eigenvector caches have already been replaced by the solver's
output for the rejected candidate. -/
theorem C2_setMatrix_exception_safety :
    ∀ (solver : Solver) (s : QuantumState) (m : Mat) (e : QuantErr),
      (QuantumState.setMatrix solver s m).2 = some e →
      ((QuantumState.setMatrix solver s m).1._density = s._density
        ∧ (QuantumState.setMatrix solver s m).1._space = s._space)
      ∧ ((m.rows ≠ m.cols ∨ checkSpaceDimensionB m s._space = false
            ∨ checkMatrixIsSelfAdjoinedB m = false) →
          (QuantumState.setMatrix solver s m).1 = s)
      ∧ (m.rows = m.cols → checkSpaceDimensionB m s._space = true →
          checkMatrixIsSelfAdjoinedB m = true →
          (QuantumState.setMatrix solver s m).1._eigenValues = (solver m).1
            ∧ (QuantumState.setMatrix solver s m).1._eigenVectors = (solver m).2) := by
  have hunfold : ∀ (solver : Solver) (s : QuantumState) (m : Mat),
      QuantumState.setMatrix solver s m =
        if m.rows ≠ m.cols then (s, some .invalidArgument)
        else if ¬ checkSpaceDimensionB m s._space then (s, some .invalidArgument)
        else if ¬ checkMatrixIsSelfAdjoinedB m then (s, some .invalidArgument)
        else if ((solver m).1).any badEigenValue then
          (⟨s._density, s._space, (solver m).1, (solver m).2⟩, some .invalidArgument)
        else if ¬ checkTraceOneB m then
          (⟨s._density, s._space, (solver m).1, (solver m).2⟩, some .invalidArgument)
        else (⟨m, s._space, (solver m).1, (solver m).2⟩, none) :=
    fun _ _ _ => rfl
  intro solver s m e he
  rw [hunfold] at he ⊢
  by_cases h1 : m.rows ≠ m.cols
  · rw [if_pos h1]
    exact ⟨⟨rfl, rfl⟩, fun _ => rfl, fun hc _ _ => absurd hc h1⟩
  · by_cases h2 : checkSpaceDimensionB m s._space = true
    · by_cases h3 : checkMatrixIsSelfAdjoinedB m = true
      · by_cases h4 : ((solver m).1).any badEigenValue = true
        · rw [if_neg h1, if_neg (not_not_intro h2), if_neg (not_not_intro h3),
            if_pos h4]
          refine ⟨⟨rfl, rfl⟩, ?_, fun _ _ _ => ⟨rfl, rfl⟩⟩
          rintro (hc | hsp | hsa)
          · exact absurd hc h1
          · simp [h2] at hsp
          · simp [h3] at hsa
        · by_cases h5 : checkTraceOneB m = true
          · rw [if_neg h1, if_neg (not_not_intro h2), if_neg (not_not_intro h3),
              if_neg h4, if_neg (not_not_intro h5)] at he
            exact absurd he (by simp)
          · rw [if_neg h1, if_neg (not_not_intro h2), if_neg (not_not_intro h3),
              if_neg h4, if_pos h5]
            refine ⟨⟨rfl, rfl⟩, ?_, fun _ _ _ => ⟨rfl, rfl⟩⟩
            rintro (hc | hsp | hsa)
            · exact absurd hc h1
            · simp [h2] at hsp
            · simp [h3] at hsa
      · rw [if_neg h1, if_neg (not_not_intro h2), if_pos h3]
        exact ⟨⟨rfl, rfl⟩, fun _ => rfl, fun _ _ hsa => absurd hsa h3⟩
    · rw [if_neg h1, if_pos h2]
      exact ⟨⟨rfl, rfl⟩, fun _ => rfl, fun _ hsp _ => absurd hsp h2⟩

/-- C2 witness: the amended guarantees evaluated on the concrete failing
`setMatrix` call of the counterexample: density and space survive, the
eigen caches hold the candidate's spectrum. -/
theorem C2_setMatrix_exception_safety_witness :
    (QuantumState.setMatrix diagSolver pureState2 mBad2).2 = some .invalidArgument
    ∧ (((QuantumState.setMatrix diagSolver pureState2 mBad2).1._density
          = pureState2._density
        ∧ (QuantumState.setMatrix diagSolver pureState2 mBad2).1._space
          = pureState2._space)
      ∧ ((mBad2.rows ≠ mBad2.cols
            ∨ checkSpaceDimensionB mBad2 pureState2._space = false
            ∨ checkMatrixIsSelfAdjoinedB mBad2 = false) →
          (QuantumState.setMatrix diagSolver pureState2 mBad2).1 = pureState2)
      ∧ (mBad2.rows = mBad2.cols →
          checkSpaceDimensionB mBad2 pureState2._space = true →
          checkMatrixIsSelfAdjoinedB mBad2 = true →
          (QuantumState.setMatrix diagSolver pureState2 mBad2).1._eigenValues
            = (diagSolver mBad2).1
          ∧ (QuantumState.setMatrix diagSolver pureState2 mBad2).1._eigenVectors
            = (diagSolver mBad2).2)) :=
  ⟨by with_unfolding_all rfl,
   C2_setMatrix_exception_safety diagSolver pureState2 mBad2 .invalidArgument
     (by with_unfolding_all rfl)⟩

/-- C1 (counterexample to the claim as stated, at rank 1): on the valid
rank-1 state `|0⟩⟨0|` with the in-range subsystem index 0, `partialTrace`
does not return a state at all — the reduced space is empty and the loop's
first `getIndex` call reads `vec[-1]` on an empty Eigen vector (undefined
behavior, modelled as an error). -/
theorem C1_counterexample :
    pureState2.ValidExact ∧ pureState2._space._rank = 1
    ∧ QuantumState.partialTrace diagSolver pureState2 0
        = .error .undefinedBehavior :=
  ⟨of_decide_eq_true (by with_unfolding_all rfl), rfl, by with_unfolding_all rfl⟩

/-- C1 (amended to rank at least 2): on every valid state over a space of
rank `r ≥ 2` and subsystem index in `[0, r)`, `partialTrace` returns a
state over the space with that factor erased (remaining factors in order)
whose density matrix satisfies `result[i, j] = Σ_k ρ[(i, k), (j, k)]`,
where `(i, k)` is the flat index of the multi-index of `i` with digit `k`
inserted at the traced position; in particular, on a 2-factor product
state `ρ_A ⊗ ρ_B` (with `trace ρ_B = 1`), tracing out factor 1 returns a
state whose density matrix is exactly `ρ_A`.  The eigensolver hypothesis
states that it reports no negative eigenvalue beyond tolerance on the
positive-semidefinite result, as Eigen's solver does. -/
theorem C1_partialTrace_formula :
    (∀ (solver : Solver) (st : QuantumState) (index : Int),
      st.ValidExact → 2 ≤ st._space._rank → 0 ≤ index →
      index < (st._space._rank : Int) →
      ((solver (QuantumState.constructedDensity (ptMatrix st index.toNat))).1).any
        badEigenValue = false →
      ∃ result, QuantumState.partialTrace solver st index = .ok result
        ∧ result._space._dimensions = st._space._dimensions.eraseIdx index.toNat
        ∧ (∀ i, i < (st._space._dimensions.eraseIdx index.toNat).prod →
            ∀ j, j < (st._space._dimensions.eraseIdx index.toNat).prod →
            result._density.entry i j
              = ∑ k ∈ Finset.range (st._space._dimensions.getD index.toNat 0),
                  st._density.entry
                    (insFlat st._space._dimensions index.toNat i k)
                    (insFlat st._space._dimensions index.toNat j k)))
    ∧ (∀ (solver : Solver) (ρA ρB : Mat) (a b : Nat) (ev : List ℚ) (evec : Mat),
      ρA.rows = a → ρA.cols = a → ρB.rows = b → ρB.cols = b →
      QuantumState.ValidExact
        ⟨KroneckerTensor.product ρA ρB, HilbertSpace.ofDims [a, b], ev, evec⟩ →
      ρB.trace = 1 →
      ((solver (QuantumState.constructedDensity
        (ptMatrix ⟨KroneckerTensor.product ρA ρB, HilbertSpace.ofDims [a, b],
          ev, evec⟩ 1))).1).any badEigenValue = false →
      ∃ result,
        QuantumState.partialTrace solver
          ⟨KroneckerTensor.product ρA ρB, HilbertSpace.ofDims [a, b], ev, evec⟩ 1
          = .ok result
        ∧ result._space._dimensions = [a]
        ∧ (∀ i, i < a → ∀ j, j < a →
            result._density.entry i j = ρA.entry i j)) := by
  constructor
  · intro solver st index hst h2 h0 hin hev
    have hidxN : index.toNat < st._space._dimensions.length := by
      have := hst.1.1
      omega
    refine ⟨_, partialTrace_eq_ok solver st index hst h2 h0 hin hev, rfl, ?_⟩
    intro i hi j hj
    show (QuantumState.constructedDensity (ptMatrix st index.toNat)).entry i j = _
    rw [constructedDensity_ptMatrix_entry st index.toNat hst hidxN i j hi hj]
    exact ptMatrix_entry_formula st index.toNat hst.1 hidxN i j hi hj
  · intro solver ρA ρB a b ev evec hAr hAc hBr hBc hst hBtr hev
    have hidxN : (1 : Nat) < ([a, b] : List Nat).length := by simp
    have hpos : ∀ x ∈ ([a, b] : List Nat), 0 < x := hst.1.2.1
    have hbpos : 0 < b := hpos b (by simp)
    have hprodred : (([a, b] : List Nat).eraseIdx 1).prod = a := by
      simp [List.eraseIdx]
    refine ⟨_, partialTrace_eq_ok solver _ 1 hst (by simp [HilbertSpace.ofDims])
      (by norm_num) (by simp [HilbertSpace.ofDims]) hev, rfl, ?_⟩
    intro i hi j hj
    have hi2 : i < (([a, b] : List Nat).eraseIdx 1).prod := by rw [hprodred]; exact hi
    have hj2 : j < (([a, b] : List Nat).eraseIdx 1).prod := by rw [hprodred]; exact hj
    show (QuantumState.constructedDensity
        (ptMatrix ⟨KroneckerTensor.product ρA ρB, HilbertSpace.ofDims [a, b],
          ev, evec⟩ 1)).entry i j = _
    rw [constructedDensity_ptMatrix_entry _ 1 hst hidxN i j hi2 hj2,
      ptMatrix_entry_formula _ 1 hst.1 hidxN i j hi2 hj2]
    show (∑ k ∈ Finset.range ((([a, b] : List Nat).getD 1 0)),
        (KroneckerTensor.product ρA ρB).entry
          (insFlat [a, b] 1 i k) (insFlat [a, b] 1 j k))
      = ρA.entry i j
    have hterm : ∀ k ∈ Finset.range ((([a, b] : List Nat).getD 1 0)),
        (KroneckerTensor.product ρA ρB).entry
            (insFlat [a, b] 1 i k) (insFlat [a, b] 1 j k)
          = ρA.entry i j * ρB.entry k k := by
      intro k hk
      rw [Finset.mem_range] at hk
      have hkb : k < b := hk
      rw [insFlat_two a b i k hi, insFlat_two a b j k hj,
        kron_at_ins ρA ρB b hBr hBc hbpos i j k hkb]
    rw [Finset.sum_congr rfl hterm, ← Finset.mul_sum]
    have hsum : (∑ k ∈ Finset.range ((([a, b] : List Nat).getD 1 0)),
        ρB.entry k k) = 1 := by
      rw [show (([a, b] : List Nat).getD 1 0) = b from rfl, ← hBr, ← Mat.trace]
      exact hBtr
    rw [hsum, mul_one]

/-- C1 witness: the amended theorem evaluated on the two-qubit pure state
`|00⟩⟨00|` (which is `|0⟩⟨0| ⊗ |0⟩⟨0|`), tracing out factor 1. -/
theorem C1_partialTrace_formula_witness :
    pureState22.ValidExact
    ∧ ((diagSolver (QuantumState.constructedDensity (ptMatrix pureState22 1))).1).any
        badEigenValue = false
    ∧ (∃ result, QuantumState.partialTrace diagSolver pureState22 1 = .ok result
        ∧ result._space._dimensions = pureState22._space._dimensions.eraseIdx 1
        ∧ (∀ i, i < (pureState22._space._dimensions.eraseIdx 1).prod →
            ∀ j, j < (pureState22._space._dimensions.eraseIdx 1).prod →
            result._density.entry i j
              = ∑ k ∈ Finset.range (pureState22._space._dimensions.getD 1 0),
                  pureState22._density.entry
                    (insFlat pureState22._space._dimensions 1 i k)
                    (insFlat pureState22._space._dimensions 1 j k))) := by
  have hst : pureState22.ValidExact := of_decide_eq_true (by with_unfolding_all rfl)
  have hev : ((diagSolver (QuantumState.constructedDensity
      (ptMatrix pureState22 1))).1).any badEigenValue = false := by
    with_unfolding_all rfl
  exact ⟨hst, hev,
    C1_partialTrace_formula.1 diagSolver pureState22 1 hst
      (by norm_num [pureState22, HilbertSpace.ofDims])
      (by norm_num)
      (by norm_num [pureState22, HilbertSpace.ofDims])
      hev⟩

/-- C7: on every valid state (with the eigensolver hypothesis for the
in-range case), `partialTrace(index)` raises `invalid_argument` exactly
when `index < 0` or `index ≥ rank`.  (The method is `const` in the source:
it never mutates the receiver, so the state is trivially unchanged on an
out-of-range index — the model is a pure function of the state.)  For an
in-range index over a space of rank at least 2 the call returns normally;
over a space of rank 1 it performs an out-of-bounds read (undefined
behavior, modelled as a distinct error, not an `invalid_argument`
raise). -/
theorem C7_partialTrace_range_check :
    ∀ (solver : Solver) (st : QuantumState) (index : Int),
      st.ValidExact →
      ((solver (QuantumState.constructedDensity (ptMatrix st index.toNat))).1).any
        badEigenValue = false →
      (QuantumState.partialTrace solver st index = .error .invalidArgument
        ↔ (index < 0 ∨ (st._space._rank : Int) ≤ index)) := by
  intro solver st index hst hev
  constructor
  · intro herr
    by_contra hcon
    push_neg at hcon
    obtain ⟨h0, hin⟩ := hcon
    rcases Nat.lt_or_ge st._space._rank 2 with hr | hr
    · have hr1 : st._space._rank = 1 := by omega
      rw [partialTrace_rank1 solver st index hst.1 h0 hin hr1] at herr
      exact absurd herr (by simp)
    · rw [partialTrace_eq_ok solver st index hst hr h0 hin hev] at herr
      exact absurd herr (by simp)
  · intro hout
    by_cases h0 : index < 0
    · exact partialTrace_neg solver st index h0
    · rcases hout with h | h
      · exact absurd h h0
      · exact partialTrace_ge solver st index h0 h

/-- C7 witness: on the two-qubit state, index 3 is out of range and raises
`invalid_argument`, index 1 is in range and does not. -/
theorem C7_partialTrace_range_check_witness :
    pureState22.ValidExact
    ∧ (QuantumState.partialTrace diagSolver pureState22 3
        = .error .invalidArgument
      ↔ ((3 : Int) < 0 ∨ (pureState22._space._rank : Int) ≤ 3))
    ∧ (QuantumState.partialTrace diagSolver pureState22 1
        = .error .invalidArgument
      ↔ ((1 : Int) < 0 ∨ (pureState22._space._rank : Int) ≤ 1)) := by
  have hst : pureState22.ValidExact := of_decide_eq_true (by with_unfolding_all rfl)
  refine ⟨hst,
    C7_partialTrace_range_check diagSolver pureState22 3 hst ?_,
    C7_partialTrace_range_check diagSolver pureState22 1 hst ?_⟩
  · with_unfolding_all rfl
  · with_unfolding_all rfl

end QuantEmul
